import Mathlib

/-!
# Verification of the AI-bookmarks store

A shallow embedding of the bookmark store of this repository
(`src/store/bookmarkStore.ts`, `src/store/types.ts`, the standalone variant
`bookmarkStoreStandalone.ts`, and the parts of `utils.ts` that the store
calls), together with theorems settling the specification claims.

Conventions of the embedding:

* TypeScript `number` fields that hold line numbers or `order` values are
  modelled as `Int`.
* `undefined`-able fields (`category?`, `tags?`, `codeSnapshot?`, optional
  filter/update arguments) are modelled as `Option _`; JavaScript truthiness
  of strings/options is modelled explicitly (`truthy`, `falsyStr`).
* The `uuid` generator and `nowISO()` are impure; operations take the fresh
  id and the timestamp as explicit arguments.
* Persistence (`save`/`load`) and event emission have no effect on the
  in-memory state and are omitted; every operation is a pure function from
  the store state to the pair (returned value, next store state).
* `Array.prototype.sort` with the comparator `(a, b) => a.order - b.order`
  is a stable sort by `order`; it is modelled by `List.insertionSort`, which
  is stable and sorted for the total transitive relation used here.
-/

namespace AIBookmarks

/-! ## JavaScript string primitives used by the store -/

/-- The character class of the regex `\s` in `calculateSimilarity`
(modelled over the ASCII whitespace characters: space, tab, line feed,
vertical tab, form feed, carriage return). -/
def isWs (c : Char) : Bool :=
  c = ' ' || c = '\t' || c = '\n' || c = '\r' || c.toNat = 11 || c.toNat = 12

/-- Worker for `splitWs`: `cur` is the reversed current fragment, `inWs`
records whether the previous character belonged to a whitespace run (so a
run of whitespace acts as a single separator, as the regex `\s+` does). -/
def splitWsGo : List Char → Bool → List Char → List (List Char)
  | cur, _, [] => [cur.reverse]
  | cur, inWs, c :: cs =>
    if isWs c then
      if inWs then splitWsGo cur true cs
      else cur.reverse :: splitWsGo [] true cs
    else splitWsGo (c :: cur) false cs

/-- JavaScript `str.split(/\s+/)`: the fragments between maximal whitespace
runs.  As in JavaScript, a leading whitespace run and a trailing whitespace
run each contribute an empty fragment, and the empty string yields `[""]`. -/
def splitWs (cs : List Char) : List (List Char) :=
  splitWsGo [] false cs

/-- `small` is a leading block of `big` (character-by-character). -/
def hasPre : List Char → List Char → Bool
  | [], _ => true
  | _ :: _, [] => false
  | a :: as, b :: bs => a == b && hasPre as bs

/-- `small` occurs contiguously inside `big`: JavaScript
`big.includes(small)`. -/
def hasSub (small : List Char) : List Char → Bool
  | [] => small.isEmpty
  | b :: bs => hasPre small (b :: bs) || hasSub small bs

/-- JavaScript `a.includes(b)`. -/
def strIncludes (a b : String) : Bool :=
  hasSub b.toList a.toList

/-- JavaScript `content.split('\n')` (splitting on every single newline,
keeping empty pieces). -/
def splitNl : List Char → List (List Char)
  | [] => [[]]
  | c :: cs =>
    let r := splitNl cs
    if c = '\n' then [] :: r
    else
      match r with
      | s :: ss => (c :: s) :: ss
      | [] => [[c]]

/-- JavaScript `lines.join('\n')`. -/
def joinNl : List (List Char) → List Char
  | [] => []
  | [x] => x
  | x :: y :: xs => x ++ '\n' :: joinNl (y :: xs)

/-! ## Decimal rendering and parsing of numbers

The missing `utils.ts` renders line numbers with JavaScript template
strings and reads them back with `parseInt`; the embedding uses an explicit
decimal codec (`toDec` / `parseNatChars`), restricted to plain decimal
numerals. -/

/-- Fuel-driven decimal rendering worker (the fuel `n + 1` always
suffices). -/
def toDecGo : Nat → Nat → List Char → List Char
  | 0, _, acc => acc
  | fuel + 1, n, acc =>
    let acc2 := Nat.digitChar (n % 10) :: acc
    if n < 10 then acc2 else toDecGo fuel (n / 10) acc2

/-- The canonical decimal numeral of a natural number, as characters. -/
def toDec (n : Nat) : List Char :=
  toDecGo (n + 1) n []

/-- Decimal rendering of an integer (used for formatting line numbers). -/
def intChars (i : Int) : List Char :=
  if i < 0 then '-' :: toDec (-i).toNat else toDec i.toNat

/-- The value of a decimal digit character, if it is one. -/
def digitVal (c : Char) : Option Nat :=
  if '0' ≤ c ∧ c ≤ '9' then some (c.toNat - '0'.toNat) else none

/-- Left-to-right accumulation of decimal digits. -/
def parseNatGo (acc : Nat) : List Char → Option Nat
  | [] => some acc
  | c :: cs =>
    match digitVal c with
    | some d => parseNatGo (acc * 10 + d) cs
    | none => none

/-- Strict decimal parse of a nonempty all-digit string. -/
def parseNatChars (cs : List Char) : Option Nat :=
  if cs.isEmpty then none else parseNatGo 0 cs

/-! ## Location codec

The `ParsedLocation` shape is from `src/store/types.ts`.  The functions
`parseLocation` / `formatLocation` / `adjustLineNumbers` / `normalizePath`
live in `src/utils.ts`, which is not among the provided sources; they are
modelled from the spec (§4.1, §4.2). -/

/-- From `src/store/types.ts`: the parsed form of a `path:line` /
`path:start-end` location string. -/
structure ParsedLocation where
  filePath : String
  startLine : Int
  endLine : Int
  isRange : Bool
deriving DecidableEq, Repr

/-- Split a character list at its last `':'`: the location grammar's
separation of file path from line-spec. -/
def splitLastCol (cs : List Char) : Option (List Char × List Char) :=
  if cs.contains ':' then
    some (((cs.reverse.dropWhile (fun c => c != ':')).tail).reverse,
          (cs.reverse.takeWhile (fun c => c != ':')).reverse)
  else none

/-- Modelled from the spec: `parseLocation` of the missing `src/utils.ts`.
Per §4.1: split on the last colon (no colon ⇒ malformed, modelled as
`none`); a line-spec containing a hyphen is a `start-end` range, otherwise a
single line used as both bounds; non-numeric line-specs are malformed. -/
def parseLocation (s : String) : Option ParsedLocation :=
  match splitLastCol s.toList with
  | none => none
  | some (p, spec) =>
    if spec.contains '-' then
      match parseNatChars (spec.takeWhile (fun c => c != '-')),
            parseNatChars ((spec.dropWhile (fun c => c != '-')).tail) with
      | some a, some b => some ⟨String.mk p, (a : Int), (b : Int), true⟩
      | _, _ => none
    else
      match parseNatChars spec with
      | some n => some ⟨String.mk p, (n : Int), (n : Int), false⟩
      | none => none

/-- Modelled from the spec: `formatLocation` of the missing `src/utils.ts`.
Per §4.1, the exact inverse of parsing: a single line renders as `path:N`,
a range as `path:N-M`. -/
def formatLocation (p : ParsedLocation) : String :=
  String.mk (p.filePath.toList ++ ':' ::
    (if p.isRange then intChars p.startLine ++ '-' :: intChars p.endLine
     else intChars p.startLine))

/-- Modelled from the spec: `adjustLineNumbers` of the missing
`src/utils.ts`.  Per §4.2: a range entirely before the edit point is
unchanged; a range entirely at or after it shifts by `delta`; an edit point
inside the range extends/shrinks only `endLine`; results are clamped to a
minimum of 1. -/
def adjustLineNumbers (p : ParsedLocation) (editStart delta : Int) : ParsedLocation :=
  if p.endLine < editStart then p
  else if editStart ≤ p.startLine then
    { p with startLine := max 1 (p.startLine + delta),
             endLine := max 1 (p.endLine + delta) }
  else
    { p with endLine := max 1 (p.endLine + delta) }

/-- Backslash-to-slash conversion (path separator normalization). -/
def slashify (c : Char) : Char :=
  if c = '\\' then '/' else c

/-- Remove trailing `'/'` characters. -/
def dropTrailingSlashes (cs : List Char) : List Char :=
  (cs.reverse.dropWhile (fun c => c == '/')).reverse

/-- Modelled from the spec: `normalizePath` of the missing `src/utils.ts`.
Per §4.1: unify path separators, strip trailing separators, and store
paths relative to the workspace root when they fall under it; other paths
are preserved. -/
def normalizePath (p root : String) : String :=
  let pc := dropTrailingSlashes (p.toList.map slashify)
  let rc := dropTrailingSlashes (root.toList.map slashify)
  if hasPre (rc ++ ['/']) pc then String.mk (pc.drop (rc.length + 1))
  else String.mk pc

/-! ## Similarity estimator

`calculateSimilarity` from `src/store/bookmarkStore.ts` (lines 421-434):
`new Set(str.split(/\s+/))` on both texts, the intersection counted by
iterating the first set, the union by inclusion–exclusion, and the ratio
(with an empty union mapped to 1). -/

/-- The set that `new Set(str.split(/\s+/))` builds for a text. -/
def tokenSet (s : String) : Finset String :=
  ((splitWs s.toList).map String.mk).toFinset

/-- `calculateSimilarity` (bookmarkStore.ts lines 421-434). -/
def calculateSimilarity (s1 s2 : String) : ℚ :=
  let t1 := tokenSet s1
  let t2 := tokenSet s2
  let inter := (t1 ∩ t2).card
  let union := t1.card + t2.card - inter
  if union = 0 then 1 else (inter : ℚ) / (union : ℚ)

/-- The whitespace-delimited tokens of a text in the ordinary sense of the
spec's words: the nonempty fragments of the whitespace split. -/
def specTokenSet (s : String) : Finset String :=
  (((splitWs s.toList).filter (fun t => !t.isEmpty)).map String.mk).toFinset

/-- The Jaccard index of two finite sets of strings, with the empty-union
case defined as 1, following the spec's words in §4.3. -/
def jaccard (t1 t2 : Finset String) : ℚ :=
  if (t1 ∪ t2).card = 0 then 1
  else ((t1 ∩ t2).card : ℚ) / ((t1 ∪ t2).card : ℚ)

/-! ## Entity model (`src/store/types.ts`) -/

/-- From `src/store/types.ts`: a single bookmark.  `category` is one of a
fixed 8-value string enumeration in the source; it is carried here as a
plain string since no claim depends on enum membership. -/
structure Bookmark where
  id : String
  order : Int
  location : String
  title : String
  description : String
  category : Option String := none
  tags : Option (List String) := none
  codeSnapshot : Option String := none
deriving DecidableEq, Repr

/-- From `src/store/types.ts`: a bookmark group. -/
structure BookmarkGroup where
  id : String
  name : String
  description : Option String := none
  query : Option String := none
  createdAt : String
  updatedAt : String
  createdBy : String
  bookmarks : List Bookmark
deriving DecidableEq, Repr

/-- From `src/store/types.ts`: the complete store. -/
structure BookmarkStore where
  version : Int
  projectName : String
  groups : List BookmarkGroup
deriving DecidableEq, Repr

/-- `createDefaultStore` (types.ts lines 459-465). -/
def createDefaultStore (projectName : String) : BookmarkStore :=
  ⟨1, projectName, []⟩

/-! ## JavaScript truthiness helpers -/

/-- JavaScript truthiness of an optional string (`undefined` and `""` are
falsy). -/
def truthy : Option String → Bool
  | none => false
  | some s => !s.isEmpty

/-- JavaScript falsiness of an optional string: `!x` for
`x : string | undefined`. -/
def falsyStr : Option String → Bool
  | none => true
  | some s => s.isEmpty

/-! ## Ordering of a group's bookmark collection

`group.bookmarks.sort((a, b) => a.order - b.order)` is a stable flat sort
of the whole collection by `order`; modelled by `List.insertionSort` under
the total, transitive relation `bkLe`. -/

/-- The comparator's ordering: `a` may precede `b` when
`a.order ≤ b.order`. -/
def bkLe (a b : Bookmark) : Prop :=
  a.order ≤ b.order

instance : DecidableRel bkLe := fun a b =>
  inferInstanceAs (Decidable (a.order ≤ b.order))

instance : IsTotal Bookmark bkLe :=
  ⟨fun a b => le_total a.order b.order⟩

instance : IsTrans Bookmark bkLe :=
  ⟨fun _ _ _ h h2 => le_trans h h2⟩

/-- The stable sort of a group's bookmark collection by `order`. -/
def sortByOrder (bs : List Bookmark) : List Bookmark :=
  List.insertionSort bkLe bs

/-! ## `addBookmark` (bookmarkStore.ts lines 158-204) -/

/-- The optional arguments of `addBookmark`. -/
structure AddOptions where
  order : Option Int := none
  category : Option String := none
  tags : Option (List String) := none
  codeSnapshot : Option String := none
deriving DecidableEq, Repr

/-- `Math.max(...group.bookmarks.map(b => b.order))` for a nonempty
collection (the empty case is never consulted by the source, which guards
on `length > 0`). -/
def maxOrderOf (bs : List Bookmark) : Int :=
  match bs.map Bookmark.order with
  | [] => 0
  | x :: xs => xs.foldl max x

/-- The `order` chosen by `addBookmark` when the caller supplies none
(lines 178-183): one greater than the maximum over the whole group, or 1
for an empty group. -/
def defaultOrder (g : BookmarkGroup) : Int :=
  if g.bookmarks.isEmpty then 1 else maxOrderOf g.bookmarks + 1

/-- The bookmark record that `addBookmark` constructs (lines 185-194). -/
def mkAddedBookmark (root loc title desc : String) (opts : AddOptions)
    (nid : String) (g : BookmarkGroup) : Bookmark :=
  { id := nid
    order := opts.order.getD (defaultOrder g)
    location := normalizePath loc root
    title := title
    description := desc
    category := opts.category
    tags := opts.tags
    codeSnapshot := opts.codeSnapshot }

/-- The state of the found group after `addBookmark` pushed the new
bookmark, re-sorted the collection and refreshed `updatedAt`
(lines 196-198). -/
def addedGroup (root loc title desc : String) (opts : AddOptions)
    (nid now : String) (g : BookmarkGroup) : BookmarkGroup :=
  { g with
      bookmarks := sortByOrder (g.bookmarks ++ [mkAddedBookmark root loc title desc opts nid g]),
      updatedAt := now }

/-- Worker of `addBookmark`: the first group with the given id receives the
new bookmark, after which its collection is re-sorted and its `updatedAt`
refreshed; `none` when no group matches. -/
def addToGroups (root gid loc title desc : String) (opts : AddOptions)
    (nid now : String) : List BookmarkGroup → Option (List BookmarkGroup)
  | [] => none
  | g :: gs =>
    if g.id == gid then
      some (addedGroup root loc title desc opts nid now g :: gs)
    else (g :: ·) <$> addToGroups root gid loc title desc opts nid now gs

/-- `addBookmark` (lines 158-204): returns the fresh bookmark id, or the
not-found sentinel `none` with the store untouched. -/
def addBookmark (root : String) (s : BookmarkStore) (gid loc title desc : String)
    (opts : AddOptions) (nid now : String) : Option String × BookmarkStore :=
  match addToGroups root gid loc title desc opts nid now s.groups with
  | none => (none, s)
  | some gs => (some nid, { s with groups := gs })

/-! ## `getBookmark` (lines 206-214) -/

/-- Scan groups for the first containing a bookmark with the given id. -/
def getBookmarkGo (bid : String) : List BookmarkGroup → Option (Bookmark × BookmarkGroup)
  | [] => none
  | g :: gs =>
    match g.bookmarks.find? (fun b => b.id == bid) with
    | some b => some (b, g)
    | none => getBookmarkGo bid gs

/-- `getBookmark` (lines 206-214). -/
def getBookmark (s : BookmarkStore) (bid : String) : Option (Bookmark × BookmarkGroup) :=
  getBookmarkGo bid s.groups

/-! ## `updateBookmark` (lines 257-301) -/

/-- The update payload of `updateBookmark`; a `some` field is a provided
(`!== undefined`) argument. -/
structure UpdateArgs where
  location : Option String := none
  title : Option String := none
  description : Option String := none
  order : Option Int := none
  category : Option String := none
  tags : Option (List String) := none
deriving DecidableEq, Repr

/-- Field-by-field replacement performed by `updateBookmark`
(lines 275-293). -/
def applyUpdates (root : String) (u : UpdateArgs) (b : Bookmark) : Bookmark :=
  { b with
    location := match u.location with
                | some l => normalizePath l root
                | none => b.location
    title := u.title.getD b.title
    description := u.description.getD b.description
    order := u.order.getD b.order
    category := match u.category with
                | some c => some c
                | none => b.category
    tags := match u.tags with
            | some t => some t
            | none => b.tags }

/-- Apply the updates to the first bookmark with the given id. -/
def updateFirstMatching (root : String) (u : UpdateArgs) (bid : String) :
    List Bookmark → List Bookmark
  | [] => []
  | b :: bs =>
    if b.id == bid then applyUpdates root u b :: bs
    else b :: updateFirstMatching root u bid bs

/-- The state of the owning group after `updateBookmark` rewrote the found
bookmark, re-sorting the collection exactly when an `order` was supplied
(lines 284-287), and refreshed `updatedAt`. -/
def updatedGroupB (root : String) (u : UpdateArgs) (bid now : String)
    (g : BookmarkGroup) : BookmarkGroup :=
  { g with
      bookmarks :=
        if u.order.isSome then sortByOrder (updateFirstMatching root u bid g.bookmarks)
        else updateFirstMatching root u bid g.bookmarks,
      updatedAt := now }

/-- Worker of `updateBookmark` over the group list: the first group holding
the bookmark is rewritten (with a re-sort exactly when an `order` was
supplied, lines 284-287), later groups untouched. -/
def updateBookmarkGo (root bid : String) (u : UpdateArgs) (now : String) :
    List BookmarkGroup → Option (List BookmarkGroup)
  | [] => none
  | g :: gs =>
    if g.bookmarks.any (fun b => b.id == bid) then
      some (updatedGroupB root u bid now g :: gs)
    else (g :: ·) <$> updateBookmarkGo root bid u now gs

/-- `updateBookmark` (lines 257-301): `false` and an untouched store when
the bookmark does not resolve. -/
def updateBookmark (root : String) (s : BookmarkStore) (bid : String)
    (u : UpdateArgs) (now : String) : Bool × BookmarkStore :=
  match updateBookmarkGo root bid u now s.groups with
  | none => (false, s)
  | some gs => (true, { s with groups := gs })

/-! ## `removeBookmark` (lines 303-317) -/

/-- Remove the first bookmark with the given id (`findIndex` + `splice`). -/
def removeFirstB (bid : String) : List Bookmark → Option (List Bookmark)
  | [] => none
  | b :: bs =>
    if b.id == bid then some bs
    else (b :: ·) <$> removeFirstB bid bs

/-- Worker of `removeBookmark` over the group list. -/
def removeBookmarkGo (bid now : String) : List BookmarkGroup → Option (List BookmarkGroup)
  | [] => none
  | g :: gs =>
    match removeFirstB bid g.bookmarks with
    | some bs => some ({ g with bookmarks := bs, updatedAt := now } :: gs)
    | none => (g :: ·) <$> removeBookmarkGo bid now gs

/-- `removeBookmark` (lines 303-317). -/
def removeBookmark (s : BookmarkStore) (bid now : String) : Bool × BookmarkStore :=
  match removeBookmarkGo bid now s.groups with
  | none => (false, s)
  | some gs => (true, { s with groups := gs })

/-! ## `updateGroup` / `removeGroup` (lines 123-154) -/

/-- The update payload of `updateGroup`. -/
structure GroupUpdates where
  name : Option String := none
  description : Option String := none
deriving DecidableEq, Repr

/-- Worker of `updateGroup`. -/
def updateGroupGo (gid : String) (u : GroupUpdates) (now : String) :
    List BookmarkGroup → Option (List BookmarkGroup)
  | [] => none
  | g :: gs =>
    if g.id == gid then
      some ({ g with
                name := u.name.getD g.name,
                description := match u.description with
                               | some d => some d
                               | none => g.description,
                updatedAt := now } :: gs)
    else (g :: ·) <$> updateGroupGo gid u now gs

/-- `updateGroup` (lines 123-141). -/
def updateGroup (s : BookmarkStore) (gid : String) (u : GroupUpdates)
    (now : String) : Bool × BookmarkStore :=
  match updateGroupGo gid u now s.groups with
  | none => (false, s)
  | some gs => (true, { s with groups := gs })

/-- Remove the first group with the given id (`findIndex` + `splice`). -/
def removeFirstG (gid : String) : List BookmarkGroup → Option (List BookmarkGroup)
  | [] => none
  | g :: gs =>
    if g.id == gid then some gs
    else (g :: ·) <$> removeFirstG gid gs

/-- `removeGroup` (lines 143-154). -/
def removeGroup (s : BookmarkStore) (gid : String) : Bool × BookmarkStore :=
  match removeFirstG gid s.groups with
  | none => (false, s)
  | some gs => (true, { s with groups := gs })

/-! ## `listBookmarks` (lines 216-255)

`parseLocation` is called without a surrounding `try` in the source, so a
malformed stored location makes the whole call throw when a `filePath`
filter is present; the embedding returns `none` for that case. -/

/-- The filters of `listBookmarks`. -/
structure ListFilters where
  groupId : Option String := none
  filePath : Option String := none
  category : Option String := none
  tags : Option (List String) := none
deriving DecidableEq, Repr

/-- The category and tags filter steps (lines 240-248): a truthy category
filter demands exact equality; a nonempty tags filter demands a present tag
list sharing at least one tag. -/
def passesCatTags (f : ListFilters) (b : Bookmark) : Bool :=
  if truthy f.category && !(b.category == f.category) then false
  else
    match f.tags with
    | some (t :: ts) =>
      match b.tags with
      | none => false
      | some bt => (t :: ts).any (fun x => bt.contains x)
    | _ => true

/-- All per-bookmark filter steps (lines 230-248); `none` models the
exception thrown by `parseLocation` on a malformed stored location when a
`filePath` filter is present. -/
def passesFilters (root : String) (f : ListFilters) (b : Bookmark) : Option Bool :=
  if truthy f.filePath then
    match parseLocation b.location with
    | none => none
    | some parsed =>
      let nf := normalizePath (f.filePath.getD "") root
      if !(strIncludes parsed.filePath nf || strIncludes nf parsed.filePath) then some false
      else some (passesCatTags f b)
  else some (passesCatTags f b)

/-- The inner loop of `listBookmarks` over one group's bookmarks. -/
def filterGroupBookmarks (root : String) (f : ListFilters) (g : BookmarkGroup) :
    List Bookmark → Option (List (Bookmark × BookmarkGroup))
  | [] => some []
  | b :: bs => do
    let p ← passesFilters root f b
    let rest ← filterGroupBookmarks root f g bs
    pure (if p then (b, g) :: rest else rest)

/-- The outer loop of `listBookmarks` over the selected groups. -/
def listGo (root : String) (f : ListFilters) :
    List BookmarkGroup → Option (List (Bookmark × BookmarkGroup))
  | [] => some []
  | g :: gs => do
    let here ← filterGroupBookmarks root f g g.bookmarks
    let rest ← listGo root f gs
    pure (here ++ rest)

/-- `listBookmarks` (lines 216-255). -/
def listBookmarks (root : String) (s : BookmarkStore) (f : ListFilters) :
    Option (List (Bookmark × BookmarkGroup)) :=
  listGo root f
    (if truthy f.groupId then s.groups.filter (fun g => some g.id == f.groupId)
     else s.groups)

/-! ## `checkBookmarkValidity` (lines 368-418)

The embedding covers the function after `getBookmark` has resolved the
bookmark; the caller-supplied `getFileContent` result is the `content`
argument (`none` models `undefined`).  An exception from the content
fetcher itself (caught by the same `try`) is not modelled. -/

/-- The result shape `{ valid: boolean; reason?: string }`. -/
structure ValidityResult where
  valid : Bool
  reason : Option String := none
deriving DecidableEq, Repr

/-- `Math.round` (as applied to the nonnegative percentage in the
source). -/
def jsRound (q : ℚ) : Int :=
  ⌊q + 1 / 2⌋

/-- The interpolated similarity message of lines 411 and 414. -/
def simMsg (head : String) (sim : ℚ) : String :=
  head ++ String.mk (toDec (jsRound (sim * 100)).toNat) ++ "% similar)"

/-- `lines.slice(startIdx, endIdx).join('\n')` for the parsed range
(lines 393-401). -/
def currentText (content : String) (p : ParsedLocation) : String :=
  String.mk (joinNl (((splitNl content.toList).drop (p.startLine - 1).toNat).take
    (p.endLine - (p.startLine - 1)).toNat))

/-- The bounds check of lines 394-399: `startIdx ≥ 0` and
`endIdx ≤ lines.length`. -/
def inBounds (content : String) (p : ParsedLocation) : Bool :=
  !(p.startLine - 1 < 0 || p.endLine > ((splitNl content.toList).length : Int))

/-- `checkBookmarkValidity` (lines 368-418) after bookmark resolution.
Note the two JavaScript falsiness gates of the source: an **empty**
`codeSnapshot` takes the `No snapshot to compare` branch, and **empty**
file content takes the `File not found` branch. -/
def checkValidity (b : Bookmark) (content : Option String) : ValidityResult :=
  if falsyStr b.codeSnapshot then ⟨true, some "No snapshot to compare"⟩
  else
    match parseLocation b.location with
    | none => ⟨false, some "Error checking validity"⟩
    | some parsed =>
      if falsyStr content then ⟨false, some "File not found"⟩
      else
        let text := content.getD ""
        if !inBounds text parsed then ⟨false, some "Line range out of bounds"⟩
        else
          let cur := currentText text parsed
          let snap := b.codeSnapshot.getD ""
          if cur == snap then ⟨true, none⟩
          else
            let sim := calculateSimilarity snap cur
            if sim < 1 / 2 then ⟨false, some (simMsg "Code changed significantly (" sim)⟩
            else ⟨true, some (simMsg "Code slightly changed (" sim)⟩

/-! ## `adjustBookmarksForFileChange` (lines 453-494)

The `hasChanges` flag is declared once for the whole call and never reset
between groups; each group's `updatedAt` is refreshed whenever the flag is
set by the time that group's bookmarks have been processed. -/

/-- Processing of one bookmark (lines 462-483): parse (a failure is caught
and skipped), skip other files, adjust, and rewrite the location if the
lines moved; the `Bool` reports whether this bookmark changed. -/
def bookmarkAdjust (np : String) (editStart delta : Int) (b : Bookmark) :
    Bookmark × Bool :=
  match parseLocation b.location with
  | none => (b, false)
  | some p =>
    if p.filePath != np then (b, false)
    else
      let adj := adjustLineNumbers p editStart delta
      if adj.startLine != p.startLine || adj.endLine != p.endLine then
        ({ b with location := formatLocation adj }, true)
      else (b, false)

/-- Whether some bookmark of the group changes location for this edit. -/
def groupChangedB (np : String) (editStart delta : Int) (g : BookmarkGroup) : Bool :=
  g.bookmarks.any (fun b => (bookmarkAdjust np editStart delta b).2)

/-- Processing of one group (lines 461-488): all its bookmarks are
adjusted, and its `updatedAt` is refreshed exactly when the call-wide flag
is set after its own bookmarks were processed. -/
def adjustGroup (np : String) (editStart delta : Int) (now : String)
    (flag : Bool) (g : BookmarkGroup) : BookmarkGroup × Bool :=
  let flag2 := flag || groupChangedB np editStart delta g
  ({ g with
       bookmarks := g.bookmarks.map (fun b => (bookmarkAdjust np editStart delta b).1),
       updatedAt := if flag2 then now else g.updatedAt },
   flag2)

/-- The group loop, threading the never-reset `hasChanges` flag. -/
def adjustGroups (np : String) (editStart delta : Int) (now : String) :
    Bool → List BookmarkGroup → List BookmarkGroup
  | _, [] => []
  | flag, g :: gs =>
    let r := adjustGroup np editStart delta now flag g
    r.1 :: adjustGroups np editStart delta now r.2 gs

/-- `adjustBookmarksForFileChange` (lines 453-494). -/
def adjustBookmarksForFileChange (root : String) (s : BookmarkStore)
    (filePath : String) (editStart delta : Int) (now : String) : BookmarkStore :=
  { s with groups := adjustGroups (normalizePath filePath root) editStart delta now false s.groups }

/-- The call-wide flag after the first `i + 1` groups were processed. -/
def anyChangedUpTo (np : String) (editStart delta : Int)
    (gs : List BookmarkGroup) (i : Nat) : Bool :=
  (gs.take (i + 1)).any (groupChangedB np editStart delta)

/-! ## Hierarchical reparenting (spec model for cycle prevention)

The tool schema in `src/mcp/server.ts` declares `update_bookmark` with a
`parentId` argument ("Circular references are prevented") and routes it to
a hierarchy-aware store, but that store implementation is not among the
provided sources; it is modelled from the spec (§3, §4.4, §7). -/

/-- Modelled from the spec: a bookmark of the hierarchy-aware store, whose
`parentId` optionally references another bookmark of the same group. -/
structure HBookmark where
  id : String
  order : Int
  parentId : Option String := none
  location : String := ""
  title : String := ""
  description : String := ""
deriving DecidableEq, Repr

/-- Modelled from the spec: a group of the hierarchy-aware store (fields
not relevant to reparenting are omitted). -/
structure HGroup where
  id : String
  bookmarks : List HBookmark
  updatedAt : String := ""
deriving DecidableEq, Repr

/-- Transitive-descendant ids by fuel-bounded expansion of the child
relation (`n` levels); `bs.length` levels reach every descendant. -/
def descendantIdsGo (bs : List HBookmark) : Nat → String → List String
  | 0, _ => []
  | n + 1, pid =>
    (bs.filter (fun b => b.parentId == some pid)).foldr
      (fun c acc => c.id :: descendantIdsGo bs n c.id ++ acc) []

/-- Modelled from the spec: the set of ids of all transitive descendants of
the bookmark `pid` within the group's collection. -/
def descendantIds (bs : List HBookmark) (pid : String) : List String :=
  descendantIdsGo bs bs.length pid

/-- The outcome of a hierarchy-aware update: the spec's NotFound and
InvalidHierarchy failure conditions (§7), or success. -/
inductive HOutcome where
  | ok
  | notFound
  | invalidHierarchy
deriving DecidableEq, Repr

/-- Set the parent of the first bookmark with the given id. -/
def setParentFirst (bid : String) (p : Option String) :
    List HBookmark → List HBookmark
  | [] => []
  | b :: bs =>
    if b.id == bid then { b with parentId := p } :: bs
    else b :: setParentFirst bid p bs

/-- The comparator's ordering on hierarchical bookmarks. -/
def hbLe (a b : HBookmark) : Prop :=
  a.order ≤ b.order

instance : DecidableRel hbLe := fun a b =>
  inferInstanceAs (Decidable (a.order ≤ b.order))

/-- Modelled from the spec: the reparenting path of `updateBookmark` of the
hierarchy-aware store (§4.4).  A provided `parentId` (`some p`; `p = none`
is an explicit null moving the bookmark to top level) is checked: a
non-null new parent must exist in the same group (NotFound otherwise), and
must be neither the bookmark itself nor any of its current descendants
(InvalidHierarchy otherwise, with the group left unchanged); on success the
collection is re-sorted by `order` and `updatedAt` refreshed. -/
def updateBookmarkH (g : HGroup) (bid : String)
    (newParent : Option (Option String)) (now : String) : HOutcome × HGroup :=
  match g.bookmarks.find? (fun b => b.id == bid) with
  | none => (.notFound, g)
  | some _ =>
    match newParent with
    | none => (.ok, { g with updatedAt := now })
    | some np =>
      match np with
      | none =>
        (.ok, { g with
                  bookmarks := List.insertionSort hbLe (setParentFirst bid none g.bookmarks),
                  updatedAt := now })
      | some p =>
        if !(g.bookmarks.any (fun b => b.id == p)) then (.notFound, g)
        else if p == bid || (descendantIds g.bookmarks bid).contains p then
          (.invalidHierarchy, g)
        else
          (.ok, { g with
                    bookmarks := List.insertionSort hbLe (setParentFirst bid (some p) g.bookmarks),
                    updatedAt := now })

/-! ## Filter dimensions of `listBookmarks`, as the spec states them -/

/-- The `groupId` dimension: when a truthy group filter is present, the
owning group must be the filtered one. -/
def groupDim (f : ListFilters) (g : BookmarkGroup) : Prop :=
  truthy f.groupId = true → f.groupId = some g.id

/-- The `filePath` dimension: when a truthy file filter is present, the
bookmark's parsed file path and the normalized filter must contain one
another as substrings (in either direction). -/
def fileDim (root : String) (f : ListFilters) (b : Bookmark) : Prop :=
  truthy f.filePath = true →
    ∃ p, parseLocation b.location = some p ∧
      (strIncludes p.filePath (normalizePath (f.filePath.getD "") root) = true ∨
       strIncludes (normalizePath (f.filePath.getD "") root) p.filePath = true)

/-- The `category` dimension: exact equality when a truthy category filter
is present. -/
def catDim (f : ListFilters) (b : Bookmark) : Prop :=
  truthy f.category = true → b.category = f.category

/-- The `tags` dimension: a nonempty tags filter demands a present tag list
containing at least one of the filter tags (OR semantics). -/
def tagsDim (f : ListFilters) (b : Bookmark) : Prop :=
  match f.tags with
  | some (t :: ts) => ∃ bt, b.tags = some bt ∧ ∃ x ∈ t :: ts, x ∈ bt
  | _ => True

/-! ## Concrete data used by the witnesses -/

/-- Witness bookmark: order 1, id `x`. -/
def wbX : Bookmark :=
  { id := "x", order := 1, location := "a.ts:1", title := "X", description := "dx" }

/-- Witness bookmark: order 1, id `y` (an order tie with `wbX`). -/
def wbY : Bookmark :=
  { id := "y", order := 1, location := "a.ts:2", title := "Y", description := "dy" }

/-- Witness group holding `wbX` and `wbY`. -/
def wg1 : BookmarkGroup :=
  { id := "g1", name := "G1", createdAt := "t0", updatedAt := "t0",
    createdBy := "ai", bookmarks := [wbX, wbY] }

/-- Witness store holding `wg1`. -/
def wStore : BookmarkStore :=
  ⟨1, "p", [wg1]⟩

/-- Witness hierarchical bookmark `a` (top level). -/
def whA : HBookmark :=
  { id := "a", order := 1 }

/-- Witness hierarchical bookmark `b`, child of `a`. -/
def whB : HBookmark :=
  { id := "b", order := 2, parentId := some "a" }

/-- Witness hierarchical group holding `whA` and its child `whB`. -/
def whG : HGroup :=
  { id := "g", bookmarks := [whA, whB] }

/-- Witness bookmark with category `bug`. -/
def wb7a : Bookmark :=
  { id := "7a", order := 1, location := "a.ts:1", title := "A", description := "",
    category := some "bug" }

/-- Witness bookmark with category `todo`. -/
def wb7b : Bookmark :=
  { id := "7b", order := 2, location := "a.ts:2", title := "B", description := "",
    category := some "todo" }

/-- Witness group for the filter claims. -/
def wg7 : BookmarkGroup :=
  { id := "g7", name := "G7", createdAt := "t0", updatedAt := "t0",
    createdBy := "ai", bookmarks := [wb7a, wb7b] }

/-- Witness store for the filter claims. -/
def wStore7 : BookmarkStore :=
  ⟨1, "p", [wg7]⟩

/-- Witness bookmark with a tag list. -/
def wb10a : Bookmark :=
  { id := "10a", order := 1, location := "a.ts:1", title := "A", description := "",
    tags := some ["x", "y"] }

/-- Witness bookmark with an absent tag list. -/
def wb10b : Bookmark :=
  { id := "10b", order := 2, location := "a.ts:2", title := "B", description := "" }

/-- Witness group for the tags-filter claim. -/
def wg10 : BookmarkGroup :=
  { id := "g10", name := "G10", createdAt := "t0", updatedAt := "t0",
    createdBy := "ai", bookmarks := [wb10a, wb10b] }

/-- Witness store for the tags-filter claim. -/
def wStore10 : BookmarkStore :=
  ⟨1, "p", [wg10]⟩

/-- Witness group containing a bookmark of the edited file. -/
def wg9a : BookmarkGroup :=
  { id := "ga", name := "A", createdAt := "t0", updatedAt := "t0",
    createdBy := "ai",
    bookmarks := [{ id := "m", order := 1, location := "a.ts:10-20",
                    title := "M", description := "" }] }

/-- Witness group with no bookmark at all (in particular none in the edited
file). -/
def wg9b : BookmarkGroup :=
  { id := "gb", name := "B", createdAt := "t0", updatedAt := "t0",
    createdBy := "ai", bookmarks := [] }

/-- Witness store for the drift-flag claim. -/
def wStore9 : BookmarkStore :=
  ⟨1, "p", [wg9a, wg9b]⟩

/-- Witness bookmark whose snapshot is the empty string. -/
def wb3 : Bookmark :=
  { id := "3", order := 1, location := "f:1", title := "T", description := "",
    codeSnapshot := some "" }

/-- Witness bookmark with snapshot `a b`. -/
def wb3c : Bookmark :=
  { id := "3c", order := 1, location := "f:1", title := "T", description := "",
    codeSnapshot := some "a b" }

/-! # Supporting lemmas -/

/-- The little-endian digits of `n`, as characters, most significant
first. -/
def revDigits (n : Nat) : List Char :=
  ((Nat.digits 10 n).map Nat.digitChar).reverse

theorem digitVal_digitChar : ∀ d < 10, digitVal (Nat.digitChar d) = some d := by
  decide

theorem digitChar_not_sep : ∀ d < 10,
    Nat.digitChar d ≠ ':' ∧ Nat.digitChar d ≠ '-' := by
  decide

theorem parseNatGo_append (l1 l2 : List Char) : ∀ acc,
    parseNatGo acc (l1 ++ l2) =
      match parseNatGo acc l1 with
      | some a => parseNatGo a l2
      | none => none := by
  induction l1 with
  | nil => intro acc; simp [parseNatGo]
  | cons c cs ih =>
    intro acc
    simp only [List.cons_append, parseNatGo]
    cases digitVal c with
    | none => rfl
    | some d => exact ih _

theorem parseNatGo_revDigits (n : Nat) : ∀ acc,
    parseNatGo acc (revDigits n) =
      some (acc * 10 ^ (Nat.digits 10 n).length + n) := by
  induction n using Nat.strong_induction_on with
  | _ n ih =>
    intro acc
    rcases Nat.eq_zero_or_pos n with h0 | hpos
    · subst h0; simp [revDigits, parseNatGo]
    · have hd : Nat.digits 10 n = n % 10 :: Nat.digits 10 (n / 10) :=
        Nat.digits_def' (by norm_num) hpos
      have hrev : revDigits n = revDigits (n / 10) ++ [Nat.digitChar (n % 10)] := by
        simp [revDigits, hd]
      rw [hrev, parseNatGo_append, ih (n / 10) (Nat.div_lt_self hpos (by norm_num))]
      simp only [parseNatGo,
        digitVal_digitChar (n % 10) (Nat.mod_lt n (by norm_num))]
      rw [hd]
      simp only [List.length_cons, pow_succ]
      have hdm : 10 * (n / 10) + n % 10 = n := Nat.div_add_mod n 10
      have hring : (acc * 10 ^ (Nat.digits 10 (n / 10)).length + n / 10) * 10 + n % 10
          = acc * (10 ^ (Nat.digits 10 (n / 10)).length * 10)
            + (10 * (n / 10) + n % 10) := by ring
      rw [hring, hdm]

theorem toDecGo_eq_revDigits : ∀ (fuel n : Nat) (acc : List Char),
    0 < n → n < 10 ^ fuel → toDecGo fuel n acc = revDigits n ++ acc := by
  intro fuel
  induction fuel with
  | zero => intro n acc hpos h; simp at h; omega
  | succ fuel ih =>
    intro n acc hpos h
    have hd : Nat.digits 10 n = n % 10 :: Nat.digits 10 (n / 10) :=
      Nat.digits_def' (by norm_num) hpos
    rcases Nat.lt_or_ge n 10 with hlt | hge
    · have hq : n / 10 = 0 := Nat.div_eq_of_lt hlt
      simp only [toDecGo, if_pos hlt]
      simp [revDigits, hd, hq]
    · have hq : 0 < n / 10 := Nat.div_pos hge (by norm_num)
      have hqlt : n / 10 < 10 ^ fuel := by
        have hps : 10 ^ (fuel + 1) = 10 ^ fuel * 10 := pow_succ 10 fuel
        rw [hps] at h
        omega
      simp only [toDecGo, if_neg (by omega : ¬ n < 10)]
      rw [ih (n / 10) _ hq hqlt]
      simp [revDigits, hd]

theorem toDec_eq (n : Nat) :
    toDec n = if n = 0 then ['0'] else revDigits n := by
  rcases Nat.eq_zero_or_pos n with h0 | hpos
  · subst h0; rfl
  · rw [if_neg (by omega)]
    have hlt : n < 10 ^ (n + 1) := by
      have h2 : n < 2 ^ n := Nat.lt_two_pow n
      have h10 : (2 : Nat) ^ n ≤ 10 ^ n := Nat.pow_le_pow_left (by norm_num) n
      have hmono : (10 : Nat) ^ n ≤ 10 ^ (n + 1) :=
        Nat.pow_le_pow_right (by norm_num) (Nat.le_succ n)
      omega
    have := toDecGo_eq_revDigits (n + 1) n [] hpos hlt
    simpa [toDec] using this

theorem parseNatChars_toDec (n : Nat) : parseNatChars (toDec n) = some n := by
  rw [toDec_eq]
  rcases Nat.eq_zero_or_pos n with h0 | hpos
  · subst h0; decide
  · rw [if_neg (by omega)]
    have hne : revDigits n ≠ [] := by
      simp [revDigits, Nat.digits_ne_nil_iff_ne_zero, Nat.pos_iff_ne_zero.mp hpos]
    rw [parseNatChars, if_neg (by simpa [List.isEmpty_iff] using hne)]
    rw [parseNatGo_revDigits]
    simp

theorem toDec_mem_digit {n : Nat} {c : Char} (hc : c ∈ toDec n) :
    ∃ d < 10, c = Nat.digitChar d := by
  rw [toDec_eq] at hc
  by_cases h0 : n = 0
  · subst h0; simp at hc; exact ⟨0, by norm_num, by simp [hc]; rfl⟩
  · rw [if_neg h0] at hc
    simp only [revDigits, List.mem_reverse, List.mem_map] at hc
    obtain ⟨d, hd, rfl⟩ := hc
    exact ⟨d, Nat.digits_lt_base (by norm_num) hd, rfl⟩

theorem toDec_ne_colon {n : Nat} {c : Char} (hc : c ∈ toDec n) : c ≠ ':' := by
  obtain ⟨d, hd, rfl⟩ := toDec_mem_digit hc
  exact (digitChar_not_sep d hd).1

theorem toDec_ne_hyphen {n : Nat} {c : Char} (hc : c ∈ toDec n) : c ≠ '-' := by
  obtain ⟨d, hd, rfl⟩ := toDec_mem_digit hc
  exact (digitChar_not_sep d hd).2

theorem takeWhile_middle (p : Char → Bool) (y : Char) (ys : List Char)
    (hy : p y = false) : ∀ xs : List Char, (∀ x ∈ xs, p x = true) →
    (xs ++ y :: ys).takeWhile p = xs := by
  intro xs
  induction xs with
  | nil => intro _; simp [List.takeWhile, hy]
  | cons a as ih =>
    intro hx
    have ha : p a = true := hx a (List.mem_cons_self a as)
    simp only [List.cons_append, List.takeWhile_cons, ha, if_true]
    rw [ih (fun x hxm => hx x (List.mem_cons_of_mem a hxm))]

theorem dropWhile_middle (p : Char → Bool) (y : Char) (ys : List Char)
    (hy : p y = false) : ∀ xs : List Char, (∀ x ∈ xs, p x = true) →
    (xs ++ y :: ys).dropWhile p = y :: ys := by
  intro xs
  induction xs with
  | nil => intro _; simp [List.dropWhile, hy]
  | cons a as ih =>
    intro hx
    have ha : p a = true := hx a (List.mem_cons_self a as)
    simp only [List.cons_append, List.dropWhile_cons, ha, if_true]
    exact ih (fun x hxm => hx x (List.mem_cons_of_mem a hxm))

theorem contains_eq_false_of_not_mem {cs : List Char} {c : Char}
    (h : ∀ x ∈ cs, x ≠ c) : cs.contains c = false := by
  induction cs with
  | nil => rfl
  | cons a as ih =>
    simp only [List.contains_cons, Bool.or_eq_false_iff]
    constructor
    · exact beq_eq_false_iff_ne.mpr (Ne.symm (h a (List.mem_cons_self a as)))
    · exact ih (fun x hx => h x (List.mem_cons_of_mem a hx))

theorem splitLastCol_append (path spec : List Char)
    (hspec : ∀ c ∈ spec, c ≠ ':') :
    splitLastCol (path ++ ':' :: spec) = some (path, spec) := by
  have hmem : (path ++ ':' :: spec).contains ':' = true :=
    List.elem_eq_true_of_mem (by simp)
  have hrev : (path ++ ':' :: spec).reverse = spec.reverse ++ ':' :: path.reverse := by
    simp
  have hspecrev : ∀ c ∈ spec.reverse, (c != ':') = true := by
    intro c hc
    exact bne_iff_ne.mpr (hspec c (List.mem_reverse.mp hc))
  have hcol : (':' != ':') = false := by decide
  unfold splitLastCol
  rw [if_pos hmem, hrev,
    takeWhile_middle (fun c => c != ':') ':' path.reverse hcol spec.reverse hspecrev,
    dropWhile_middle (fun c => c != ':') ':' path.reverse hcol spec.reverse hspecrev]
  simp

/-- Evaluation of `parseLocation` on a canonical single-line string. -/
theorem parseLocation_single (path : List Char) (n : Nat) :
    parseLocation (String.mk (path ++ ':' :: toDec n)) =
      some ⟨String.mk path, (n : Int), (n : Int), false⟩ := by
  have hspec : ∀ c ∈ toDec n, c ≠ ':' := fun c hc => toDec_ne_colon hc
  unfold parseLocation
  have htl : (String.mk (path ++ ':' :: toDec n)).toList = path ++ ':' :: toDec n := rfl
  rw [htl, splitLastCol_append path (toDec n) hspec]
  have hnh : (toDec n).contains '-' = false :=
    contains_eq_false_of_not_mem (fun x hx => toDec_ne_hyphen hx)
  simp only [hnh, Bool.false_eq_true, if_false, parseNatChars_toDec n]

/-- Evaluation of `parseLocation` on a canonical range string. -/
theorem parseLocation_range (path : List Char) (n m : Nat) :
    parseLocation (String.mk (path ++ ':' :: (toDec n ++ '-' :: toDec m))) =
      some ⟨String.mk path, (n : Int), (m : Int), true⟩ := by
  have hspec : ∀ c ∈ toDec n ++ '-' :: toDec m, c ≠ ':' := by
    intro c hc
    rcases List.mem_append.mp hc with h | h
    · exact toDec_ne_colon h
    · rcases List.mem_cons.mp h with h | h
      · subst h; decide
      · exact toDec_ne_colon h
  unfold parseLocation
  have htl : (String.mk (path ++ ':' :: (toDec n ++ '-' :: toDec m))).toList
      = path ++ ':' :: (toDec n ++ '-' :: toDec m) := rfl
  rw [htl, splitLastCol_append path _ hspec]
  have hh : (toDec n ++ '-' :: toDec m).contains '-' = true :=
    List.elem_eq_true_of_mem (by simp)
  have hhyph : ('-' != '-') = false := by decide
  have hdig : ∀ x ∈ toDec n, (x != '-') = true := fun x hx =>
    bne_iff_ne.mpr (toDec_ne_hyphen hx)
  simp only [hh, if_true,
    takeWhile_middle (fun c => c != '-') '-' (toDec m) hhyph (toDec n) hdig,
    dropWhile_middle (fun c => c != '-') '-' (toDec m) hhyph (toDec n) hdig,
    List.tail_cons, parseNatChars_toDec]

theorem intChars_natCast (n : Nat) : intChars (n : Int) = toDec n := by
  unfold intChars
  rw [if_neg (by omega : ¬ ((n : Int) < 0))]
  simp

/-- **C8.** For every valid location string `s` matching the grammar
`path:line` or `path:start-end` (the line numbers written as canonical
decimal numerals, the path arbitrary — in particular it may contain colons
before the final line-spec colon), formatting the parse of `s` yields `s`
itself: `format (parse s) = s`, where parsing splits on the last colon and
formatting renders a single line as `path:N` and a range as `path:N-M`. -/
theorem c8_location_roundtrip (path : List Char) (n m : Nat) :
    (parseLocation (String.mk (path ++ ':' :: toDec n))).map formatLocation
        = some (String.mk (path ++ ':' :: toDec n))
    ∧ (parseLocation (String.mk (path ++ ':' :: (toDec n ++ '-' :: toDec m)))).map formatLocation
        = some (String.mk (path ++ ':' :: (toDec n ++ '-' :: toDec m))) := by
  constructor
  · rw [parseLocation_single path n]
    simp [formatLocation, intChars_natCast]
  · rw [parseLocation_range path n m]
    simp [formatLocation, intChars_natCast]

theorem splitWsGo_ne_nil : ∀ (cs : List Char) (cur : List Char) (inWs : Bool),
    splitWsGo cur inWs cs ≠ [] := by
  intro cs
  induction cs with
  | nil => intro cur inWs; simp [splitWsGo]
  | cons c cs ih =>
    intro cur inWs
    simp only [splitWsGo]
    split
    · split
      · exact ih cur true
      · simp
    · exact ih (c :: cur) false

theorem tokenSet_card_pos (s : String) : 0 < (tokenSet s).card := by
  have hne : splitWs s.toList ≠ [] := splitWsGo_ne_nil s.toList [] false
  obtain ⟨x, hx⟩ := List.exists_mem_of_ne_nil _ hne
  exact Finset.card_pos.mpr ⟨String.mk x, List.mem_toFinset.mpr (List.mem_map_of_mem _ hx)⟩

theorem calculateSimilarity_eq_jaccard (s1 s2 : String) :
    calculateSimilarity s1 s2 = jaccard (tokenSet s1) (tokenSet s2) := by
  have hcard : (tokenSet s1 ∪ tokenSet s2).card + (tokenSet s1 ∩ tokenSet s2).card
      = (tokenSet s1).card + (tokenSet s2).card :=
    Finset.card_union_add_card_inter _ _
  have hsub : (tokenSet s1).card + (tokenSet s2).card - (tokenSet s1 ∩ tokenSet s2).card
      = (tokenSet s1 ∪ tokenSet s2).card := by omega
  simp only [calculateSimilarity, jaccard, hsub]

/-- **C4 (counterexample).** The claim says the estimator returns the
Jaccard index of the whitespace-delimited token sets and that texts with
disjoint token sets score 0.  The texts `" a"` and `" b"` have disjoint
whitespace-delimited token sets (`{a}` and `{b}`), yet the source scores
them `1/3`, not `0`: JavaScript `split(/\s+/)` contributes an empty-string
fragment for the leading whitespace run, and that artificial fragment is
shared. -/
theorem c4_counterexample :
    specTokenSet " a" ∩ specTokenSet " b" = ∅
    ∧ calculateSimilarity " a" " b" = 1 / 3
    ∧ calculateSimilarity " a" " b" ≠ 0
    ∧ calculateSimilarity " a" " b" ≠ jaccard (specTokenSet " a") (specTokenSet " b") := by
  have h1 : (tokenSet " a" ∩ tokenSet " b").card = 1 := by decide
  have h2 : (tokenSet " a").card = 2 := by decide
  have h3 : (tokenSet " b").card = 2 := by decide
  have hsim : calculateSimilarity " a" " b" = 1 / 3 := by
    simp only [calculateSimilarity, h1, h2, h3]
    norm_num
  have hs1 : (specTokenSet " a" ∩ specTokenSet " b").card = 0 := by decide
  have hs2 : (specTokenSet " a" ∪ specTokenSet " b").card = 2 := by decide
  have hjac : jaccard (specTokenSet " a") (specTokenSet " b") = 0 := by
    simp only [jaccard, hs1, hs2]
    norm_num
  refine ⟨by decide, hsim, ?_, ?_⟩
  · rw [hsim]; norm_num
  · rw [hsim, hjac]; norm_num

/-- **C4 (amended).** The estimator returns the Jaccard index (empty union
mapped to 1) of the *fragment* sets produced by `split(/\s+/)` — these
include an empty-string fragment when a text is empty or starts or ends
with whitespace, so they are not always the whitespace-delimited token
sets.  Consequently `similarity(s, s) = 1` for every `s`, similarity is
symmetric, and two texts whose **fragment** sets are disjoint score 0. -/
theorem c4_amended (s1 s2 s3 : String) :
    calculateSimilarity s1 s2 = jaccard (tokenSet s1) (tokenSet s2)
    ∧ calculateSimilarity s3 s3 = 1
    ∧ calculateSimilarity s1 s2 = calculateSimilarity s2 s1
    ∧ (tokenSet s1 ∩ tokenSet s2 = ∅ → calculateSimilarity s1 s2 = 0) := by
  refine ⟨calculateSimilarity_eq_jaccard s1 s2, ?_, ?_, ?_⟩
  · rw [calculateSimilarity_eq_jaccard]
    have hpos : 0 < (tokenSet s3).card := tokenSet_card_pos s3
    simp only [jaccard, Finset.union_self, Finset.inter_self]
    rw [if_neg (by omega)]
    exact div_self (by exact_mod_cast Nat.pos_iff_ne_zero.mp hpos)
  · rw [calculateSimilarity_eq_jaccard, calculateSimilarity_eq_jaccard]
    simp only [jaccard, Finset.union_comm, Finset.inter_comm]
  · intro hdisj
    rw [calculateSimilarity_eq_jaccard]
    have hpos : 0 < (tokenSet s1 ∪ tokenSet s2).card := by
      have := tokenSet_card_pos s1
      have hle : (tokenSet s1).card ≤ (tokenSet s1 ∪ tokenSet s2).card :=
        Finset.card_le_card Finset.subset_union_left
      omega
    simp only [jaccard, hdisj, Finset.card_empty, Nat.cast_zero]
    rw [if_neg (by omega)]
    simp

/-- **C4 (witness).** The amended disjointness clause at the concrete texts
`"a"` and `"b"`, whose fragment sets are disjoint. -/
theorem c4_witness : calculateSimilarity "a" "b" = 0 :=
  (c4_amended "a" "b" "a").2.2.2 (by decide)

/-- **C3 (counterexample).** The claim says a resolvable bookmark is
reported invalid when the similarity of its snapshot to the current text is
below 0.5.  The bookmark `wb3` carries the (present) snapshot `""`; with
readable in-range content `"x"` the current text `"x"` differs from the
snapshot and their similarity is `0 < 0.5` — yet the source reports
`valid`, because the JavaScript gate `!bookmark.codeSnapshot` treats the
empty snapshot as *no* snapshot. -/
theorem c3_counterexample :
    wb3.codeSnapshot = some ""
    ∧ checkValidity wb3 (some "x") = ⟨true, some "No snapshot to compare"⟩
    ∧ currentText "x" ⟨"f", 1, 1, false⟩ = "x"
    ∧ calculateSimilarity "" "x" < 1 / 2 := by
  refine ⟨rfl, by decide, by decide, ?_⟩
  have h1 : (tokenSet "" ∩ tokenSet "x").card = 0 := by decide
  have h2 : (tokenSet "").card = 1 := by decide
  have h3 : (tokenSet "x").card = 1 := by decide
  simp only [calculateSimilarity, h1, h2, h3]
  norm_num

/-- **C3 (amended).** For every resolvable bookmark, `checkBookmarkValidity`
reports: valid when the snapshot is absent **or empty**, or when the
current text of the line range is identical to the snapshot, or when the
similarity is ≥ 0.5 (then with a caveat reason); invalid when the
similarity is < 0.5, or when the location cannot be parsed, or when the
fetched content is missing **or empty**, or when the range is out of
bounds. -/
theorem c3_amended (b : Bookmark) (content : Option String) :
    ((checkValidity b content).valid = true ↔
      (falsyStr b.codeSnapshot = true
       ∨ ∃ p s, parseLocation b.location = some p ∧ content = some s
           ∧ s.isEmpty = false ∧ inBounds s p = true
           ∧ (currentText s p = b.codeSnapshot.getD ""
              ∨ 1 / 2 ≤ calculateSimilarity (b.codeSnapshot.getD "") (currentText s p))))
    ∧ (∀ p s, falsyStr b.codeSnapshot = false → parseLocation b.location = some p →
        content = some s → s.isEmpty = false → inBounds s p = true →
        currentText s p ≠ b.codeSnapshot.getD "" →
        ((1 / 2 ≤ calculateSimilarity (b.codeSnapshot.getD "") (currentText s p) →
          checkValidity b content = ⟨true, some (simMsg "Code slightly changed ("
            (calculateSimilarity (b.codeSnapshot.getD "") (currentText s p)))⟩)
         ∧ (calculateSimilarity (b.codeSnapshot.getD "") (currentText s p) < 1 / 2 →
          checkValidity b content = ⟨false, some (simMsg "Code changed significantly ("
            (calculateSimilarity (b.codeSnapshot.getD "") (currentText s p)))⟩))) := by
  constructor
  · by_cases h1 : falsyStr b.codeSnapshot = true
    · simp [checkValidity, h1]
    · have h1f : falsyStr b.codeSnapshot = false := eq_false_of_ne_true h1
      cases hp : parseLocation b.location with
      | none => simp [checkValidity, h1f, hp]
      | some parsed =>
        cases hc : content with
        | none =>
          have hfn : falsyStr (none : Option String) = true := rfl
          simp [checkValidity, h1f, hp, hfn]
        | some s =>
          by_cases h2 : s.isEmpty = true
          · have hfc : falsyStr (some s) = true := h2
            simp [checkValidity, h1f, hp, hfc, h2]
          · have hfc : falsyStr (some s) = false := eq_false_of_ne_true h2
            by_cases h3 : inBounds s parsed = true
            · by_cases h4 : currentText s parsed = b.codeSnapshot.getD ""
              · have h4b : (currentText s parsed == b.codeSnapshot.getD "") = true :=
                  beq_iff_eq.mpr h4
                simp only [checkValidity, h1f, Bool.false_eq_true, if_false, hp, hfc,
                  Option.getD_some, h3, Bool.not_true, if_true, h4b]
                simp [hp, hfc, h3, h4, eq_false_of_ne_true h2]
              · have h4b : (currentText s parsed == b.codeSnapshot.getD "") = false :=
                  beq_eq_false_iff_ne.mpr h4
                by_cases h5 : calculateSimilarity (b.codeSnapshot.getD "") (currentText s parsed) < 1 / 2
                · simp only [checkValidity, h1f, Bool.false_eq_true, if_false, hp, hfc,
                    Option.getD_some, h3, Bool.not_true, if_true, h4b, if_pos h5]
                  simp only [Bool.false_eq_true, false_iff]
                  intro hcontra
                  rcases hcontra with hcontra | ⟨p2, s2, hp2, hs2, hne2, hb2, hcase⟩
                  · exact hcontra.elim
                  · injection hp2 with hp2
                    injection hs2 with hs2
                    subst hp2; subst hs2
                    rcases hcase with hid | hsim
                    · exact h4 hid
                    · exact absurd h5 (not_lt.mpr hsim)
                · simp only [checkValidity, h1f, Bool.false_eq_true, if_false, hp, hfc,
                    Option.getD_some, h3, Bool.not_true, if_true, h4b, if_neg h5]
                  simp only [true_iff]
                  exact Or.inr ⟨parsed, s, rfl, rfl, eq_false_of_ne_true h2, h3,
                    Or.inr (not_lt.mp h5)⟩
            · have h3b : inBounds s parsed = false := eq_false_of_ne_true h3
              simp only [checkValidity, h1f, Bool.false_eq_true, if_false, hp, hfc,
                Option.getD_some, h3b, Bool.not_false, if_true]
              simp only [Bool.false_eq_true, false_iff]
              intro hcontra
              rcases hcontra with hcontra | ⟨p2, s2, hp2, hs2, hne2, hb2, hcase⟩
              · exact hcontra.elim
              · injection hp2 with hp2
                injection hs2 with hs2
                subst hp2; subst hs2
                simp [h3b] at hb2
  · intro p s hsnap hp hc hne hb hcur
    subst hc
    have hfc : falsyStr (some s) = false := by
      simpa [falsyStr] using hne
    have h4b : (currentText s p == b.codeSnapshot.getD "") = false :=
      beq_eq_false_iff_ne.mpr hcur
    constructor
    · intro hge
      simp only [checkValidity, hsnap, Bool.false_eq_true, if_false, hp, hfc,
        Option.getD_some, hb, Bool.not_true, if_true, h4b,
        if_neg (not_lt.mpr hge)]
    · intro hlt
      simp only [checkValidity, hsnap, Bool.false_eq_true, if_false, hp, hfc,
        Option.getD_some, hb, Bool.not_true, if_true, h4b, if_pos hlt]

/-- **C3 (witness).** The caveat branch of the amended claim at the
concrete bookmark `wb3c` (snapshot `a b`) and fetched content `a b c`:
similarity `2/3 ≥ 0.5`, so the result is valid with the caveat reason. -/
theorem c3_witness :
    checkValidity wb3c (some "a b c")
      = ⟨true, some (simMsg "Code slightly changed ("
          (calculateSimilarity (wb3c.codeSnapshot.getD "")
            (currentText "a b c" ⟨"f", 1, 1, false⟩)))⟩ := by
  have hsim : 1 / 2 ≤ calculateSimilarity (wb3c.codeSnapshot.getD "")
      (currentText "a b c" ⟨"f", 1, 1, false⟩) := by
    have hsnap : wb3c.codeSnapshot.getD "" = "a b" := rfl
    have hcur : currentText "a b c" ⟨"f", 1, 1, false⟩ = "a b c" := by decide
    rw [hsnap, hcur]
    have h1 : (tokenSet "a b" ∩ tokenSet "a b c").card = 2 := by decide
    have h2 : (tokenSet "a b").card = 2 := by decide
    have h3 : (tokenSet "a b c").card = 3 := by decide
    simp only [calculateSimilarity, h1, h2, h3]
    norm_num
  exact ((c3_amended wb3c (some "a b c")).2 ⟨"f", 1, 1, false⟩ "a b c"
    (by decide) (by decide) rfl (by decide) (by decide) (by decide)).1 hsim

theorem le_foldl_max (l : List Int) : ∀ seed : Int, seed ≤ l.foldl max seed := by
  induction l with
  | nil => intro seed; simp
  | cons x xs ih =>
    intro seed
    calc seed ≤ max seed x := le_max_left seed x
      _ ≤ xs.foldl max (max seed x) := ih (max seed x)

theorem mem_le_foldl_max (l : List Int) : ∀ (seed x : Int), x ∈ l →
    x ≤ l.foldl max seed := by
  induction l with
  | nil => intro seed x hx; simp at hx
  | cons y ys ih =>
    intro seed x hx
    rcases List.mem_cons.mp hx with h | h
    · subst h
      calc x ≤ max seed x := le_max_right seed x
        _ ≤ ys.foldl max (max seed x) := le_foldl_max ys (max seed x)
    · exact ih (max seed y) x h

theorem order_le_maxOrderOf {g : BookmarkGroup} {b : Bookmark}
    (hb : b ∈ g.bookmarks) : b.order ≤ maxOrderOf g.bookmarks := by
  unfold maxOrderOf
  have hmem : b.order ∈ g.bookmarks.map Bookmark.order := List.mem_map_of_mem _ hb
  cases hmap : g.bookmarks.map Bookmark.order with
  | nil => rw [hmap] at hmem; simp at hmem
  | cons x xs =>
    rw [hmap] at hmem
    rcases List.mem_cons.mp hmem with h | h
    · subst h; exact le_foldl_max xs b.order
    · exact mem_le_foldl_max xs x b.order h

theorem sortByOrder_pairwise (bs : List Bookmark) :
    (sortByOrder bs).Pairwise bkLe :=
  List.sorted_insertionSort bkLe bs

theorem sortByOrder_pair_sublist {a b : Bookmark} {bs : List Bookmark}
    (hab : bkLe a b) (hsub : [a, b].Sublist bs) :
    [a, b].Sublist (sortByOrder bs) :=
  List.pair_sublist_insertionSort hab hsub

theorem sortByOrder_perm (bs : List Bookmark) : (sortByOrder bs).Perm bs :=
  List.perm_insertionSort bkLe bs

theorem addToGroups_mem (root gid loc title desc : String) (opts : AddOptions)
    (nid now : String) :
    ∀ (gs gs2 : List BookmarkGroup) (g : BookmarkGroup),
      gs.find? (fun h => h.id == gid) = some g →
      addToGroups root gid loc title desc opts nid now gs = some gs2 →
      (addedGroup root loc title desc opts nid now g ∈ gs2
       ∧ ∀ g2 ∈ gs2, g2 ∈ gs ∨ g2 = addedGroup root loc title desc opts nid now g) := by
  intro gs
  induction gs with
  | nil => intro gs2 g hf; simp at hf
  | cons h t ih =>
    intro gs2 g hf hadd
    by_cases hid : (h.id == gid) = true
    · rw [@List.find?_cons_of_pos _ (fun x => x.id == gid) h t hid] at hf
      injection hf with hf
      subst hf
      unfold addToGroups at hadd
      rw [if_pos hid] at hadd
      injection hadd with hadd
      subst hadd
      refine ⟨List.mem_cons_self _ _, ?_⟩
      intro g2 hg2
      rcases List.mem_cons.mp hg2 with h2 | h2
      · exact Or.inr h2
      · exact Or.inl (List.mem_cons_of_mem _ h2)
    · rw [@List.find?_cons_of_neg _ (fun x => x.id == gid) h t hid] at hf
      unfold addToGroups at hadd
      rw [if_neg hid] at hadd
      cases hrec : addToGroups root gid loc title desc opts nid now t with
      | none => rw [hrec] at hadd; exact absurd hadd (by simp [Option.map_none'])
      | some t2 =>
        rw [hrec] at hadd
        have hadd2 : some (h :: t2) = some gs2 := hadd
        injection hadd2 with hadd2
        subst hadd2
        obtain ⟨hmem, hall⟩ := ih t2 g hf hrec
        refine ⟨List.mem_cons_of_mem _ hmem, ?_⟩
        intro g2 hg2
        rcases List.mem_cons.mp hg2 with h2 | h2
        · exact Or.inl (h2 ▸ List.mem_cons_self _ _)
        · rcases hall g2 h2 with h3 | h3
          · exact Or.inl (List.mem_cons_of_mem _ h3)
          · exact Or.inr h3

theorem updateBookmarkGo_mem (root bid : String) (u : UpdateArgs) (now : String) :
    ∀ (gs gs2 : List BookmarkGroup),
      updateBookmarkGo root bid u now gs = some gs2 →
      ∀ g2 ∈ gs2, g2 ∈ gs ∨ ∃ g, g2 = updatedGroupB root u bid now g := by
  intro gs
  induction gs with
  | nil => intro gs2 h; simp [updateBookmarkGo] at h
  | cons h t ih =>
    intro gs2 hupd g2 hg2
    unfold updateBookmarkGo at hupd
    by_cases hany : h.bookmarks.any (fun b => b.id == bid) = true
    · rw [if_pos hany] at hupd
      injection hupd with hupd
      subst hupd
      rcases List.mem_cons.mp hg2 with h2 | h2
      · exact Or.inr ⟨h, h2⟩
      · exact Or.inl (List.mem_cons_of_mem _ h2)
    · rw [if_neg hany] at hupd
      cases hrec : updateBookmarkGo root bid u now t with
      | none => rw [hrec] at hupd; exact absurd hupd (by simp [Option.map_none'])
      | some t2 =>
        rw [hrec] at hupd
        have hupd2 : some (h :: t2) = some gs2 := hupd
        injection hupd2 with hupd2
        subst hupd2
        rcases List.mem_cons.mp hg2 with h2 | h2
        · exact Or.inl (h2 ▸ List.mem_cons_self _ _)
        · rcases ih t2 hrec g2 h2 with h3 | h3
          · exact Or.inl (List.mem_cons_of_mem _ h3)
          · exact Or.inr h3

/-- **C1.** For every group, after every bookmark insertion (`addBookmark`)
and after every `updateBookmark` call that supplies an `order` value, the
group's bookmark collection is sorted non-decreasingly by `order`, as a
single flat stable sort of the whole collection (so a pair of bookmarks
with equal orders keeps its previous relative order).  Stated as: any group
of the resulting store that is not carried over unchanged is the rewritten
one, its collection is pairwise ordered, and (for the insertion case) every
order-tied pair of the pushed collection survives in order. -/
theorem c1_sorted_after_mutation (root : String) (s : BookmarkStore)
    (gid loc title desc : String) (opts : AddOptions) (nid now : String)
    (g : BookmarkGroup) (s2 : BookmarkStore) (g2 : BookmarkGroup)
    (bid : String) (u : UpdateArgs) (a b : Bookmark) :
    (s.groups.find? (fun h => h.id == gid) = some g →
     addBookmark root s gid loc title desc opts nid now = (some nid, s2) →
     g2 ∈ s2.groups → g2 ∉ s.groups →
     (g2.bookmarks.Pairwise bkLe
      ∧ (a.order = b.order →
         [a, b].Sublist (g.bookmarks ++ [mkAddedBookmark root loc title desc opts nid g]) →
         [a, b].Sublist g2.bookmarks)))
    ∧ (u.order.isSome = true →
       updateBookmark root s bid u now = (true, s2) →
       g2 ∈ s2.groups → g2 ∉ s.groups →
       g2.bookmarks.Pairwise bkLe) := by
  constructor
  · intro hf hadd hmem hnot
    unfold addBookmark at hadd
    cases haddg : addToGroups root gid loc title desc opts nid now s.groups with
    | none => rw [haddg] at hadd; injection hadd with h1 h2; simp at h1
    | some gs2 =>
      rw [haddg] at hadd
      injection hadd with h1 h2
      subst h2
      obtain ⟨-, hall⟩ := addToGroups_mem root gid loc title desc opts nid now
        s.groups gs2 g hf haddg
      rcases hall g2 hmem with hold | hnew
      · exact absurd hold hnot
      · subst hnew
        have hbk : (addedGroup root loc title desc opts nid now g).bookmarks
            = sortByOrder (g.bookmarks ++ [mkAddedBookmark root loc title desc opts nid g]) := rfl
        refine ⟨hbk ▸ sortByOrder_pairwise _, ?_⟩
        intro heq hsub
        exact hbk ▸ sortByOrder_pair_sublist (le_of_eq heq) hsub
  · intro hord hupd hmem hnot
    unfold updateBookmark at hupd
    cases hgo : updateBookmarkGo root bid u now s.groups with
    | none => rw [hgo] at hupd; injection hupd with h1 h2; simp at h1
    | some gs2 =>
      rw [hgo] at hupd
      injection hupd with h1 h2
      subst h2
      rcases updateBookmarkGo_mem root bid u now s.groups gs2 hgo g2 hmem with hold | ⟨g3, hnew⟩
      · exact absurd hold hnot
      · subst hnew
        have hbk : (updatedGroupB root u bid now g3).bookmarks
            = if u.order.isSome then sortByOrder (updateFirstMatching root u bid g3.bookmarks)
              else updateFirstMatching root u bid g3.bookmarks := rfl
        rw [hbk, if_pos hord]
        exact sortByOrder_pairwise _

/-- **C1 (witness).** The theorem applied to the concrete store `wStore`:
an insertion with default order into `wg1`, whose bookmarks `wbX`, `wbY`
are an order tie, yields a pairwise-sorted collection in which the tied
pair keeps its order; and an `updateBookmark` supplying `order := 5` also
leaves a pairwise-sorted collection. -/
theorem c1_witness :
    (addedGroup "" "a.ts:3" "Z" "dz" {} "z" "t1" wg1).bookmarks.Pairwise bkLe
    ∧ [wbX, wbY].Sublist (addedGroup "" "a.ts:3" "Z" "dz" {} "z" "t1" wg1).bookmarks
    ∧ (updatedGroupB "" { order := some 5 } "x" "t1" wg1).bookmarks.Pairwise bkLe := by
  have h1 := (c1_sorted_after_mutation "" wStore "g1" "a.ts:3" "Z" "dz" {} "z" "t1" wg1
      (addBookmark "" wStore "g1" "a.ts:3" "Z" "dz" {} "z" "t1").2
      (addedGroup "" "a.ts:3" "Z" "dz" {} "z" "t1" wg1) "" {} wbX wbY).1
      (by decide) (by decide) (by decide) (by decide)
  have h2 := (c1_sorted_after_mutation "" wStore "g1" "a.ts:3" "Z" "dz" {} "z" "t1" wg1
      (updateBookmark "" wStore "x" { order := some 5 } "t1").2
      (updatedGroupB "" { order := some 5 } "x" "t1" wg1) "x" { order := some 5 } wbX wbY).2
      (by decide) (by decide) (by decide) (by decide)
  exact ⟨h1.1, h1.2 (by decide) (by decide), h2⟩

/-- **C2.** For every existing group, `addBookmark` called without an
explicit order assigns the new bookmark an order of one greater than the
current maximum order among the group's bookmarks — or 1 if the group has
no bookmarks yet — and in particular the assigned value is strictly
greater than every pre-existing order in the group; the new bookmark lands
in the group's collection. -/
theorem c2_default_order (root : String) (s : BookmarkStore)
    (gid loc title desc : String) (opts : AddOptions) (nid now : String)
    (g : BookmarkGroup) (s2 : BookmarkStore) (b : Bookmark)
    (hnone : opts.order = none)
    (hf : s.groups.find? (fun h => h.id == gid) = some g)
    (hadd : addBookmark root s gid loc title desc opts nid now = (some nid, s2)) :
    (mkAddedBookmark root loc title desc opts nid g).order
        = (if g.bookmarks.isEmpty then 1 else maxOrderOf g.bookmarks + 1)
    ∧ (b ∈ g.bookmarks → b.order < (mkAddedBookmark root loc title desc opts nid g).order)
    ∧ ∃ g2 ∈ s2.groups, g2.id = gid
        ∧ mkAddedBookmark root loc title desc opts nid g ∈ g2.bookmarks := by
  have hordval : (mkAddedBookmark root loc title desc opts nid g).order
      = if g.bookmarks.isEmpty then 1 else maxOrderOf g.bookmarks + 1 := by
    simp [mkAddedBookmark, hnone, defaultOrder]
  refine ⟨hordval, ?_, ?_⟩
  · intro hb
    have hne : ¬ g.bookmarks.isEmpty := by
      cases hbk : g.bookmarks with
      | nil => rw [hbk] at hb; simp at hb
      | cons x xs => simp [hbk]
    rw [hordval, if_neg hne]
    have := order_le_maxOrderOf hb
    omega
  · unfold addBookmark at hadd
    cases haddg : addToGroups root gid loc title desc opts nid now s.groups with
    | none => rw [haddg] at hadd; injection hadd with h1 h2; simp at h1
    | some gs2 =>
      rw [haddg] at hadd
      injection hadd with h1 h2
      subst h2
      obtain ⟨hmem, -⟩ := addToGroups_mem root gid loc title desc opts nid now
        s.groups gs2 g hf haddg
      refine ⟨addedGroup root loc title desc opts nid now g, hmem, ?_, ?_⟩
      · have := List.find?_some hf
        exact beq_iff_eq.mp this
      · have hbk : (addedGroup root loc title desc opts nid now g).bookmarks
            = sortByOrder (g.bookmarks ++ [mkAddedBookmark root loc title desc opts nid g]) := rfl
        rw [hbk]
        exact (sortByOrder_perm _).mem_iff.mpr
          (List.mem_append_right _ (List.mem_singleton_self _))

/-- **C2 (witness).** The theorem at the concrete store `wStore`: the
default order is `max{1, 1} + 1 = 2`, strictly above the order of the
existing bookmark `wbX`, and the new bookmark is in the group. -/
theorem c2_witness :
    (mkAddedBookmark "" "a.ts:3" "Z" "dz" {} "z" wg1).order
        = (if wg1.bookmarks.isEmpty then 1 else maxOrderOf wg1.bookmarks + 1)
    ∧ wbX.order < (mkAddedBookmark "" "a.ts:3" "Z" "dz" {} "z" wg1).order
    ∧ ∃ g2 ∈ (addBookmark "" wStore "g1" "a.ts:3" "Z" "dz" {} "z" "t1").2.groups,
        g2.id = "g1" ∧ mkAddedBookmark "" "a.ts:3" "Z" "dz" {} "z" wg1 ∈ g2.bookmarks := by
  have h := c2_default_order "" wStore "g1" "a.ts:3" "Z" "dz" {} "z" "t1" wg1
      (addBookmark "" wStore "g1" "a.ts:3" "Z" "dz" {} "z" "t1").2 wbX
      rfl (by decide) (by decide)
  exact ⟨h.1, h.2.1 (by decide), h.2.2⟩

theorem addToGroups_none (root gid loc title desc : String) (opts : AddOptions)
    (nid now : String) : ∀ gs : List BookmarkGroup, (∀ g ∈ gs, g.id ≠ gid) →
    addToGroups root gid loc title desc opts nid now gs = none := by
  intro gs
  induction gs with
  | nil => intro _; rfl
  | cons h t ih =>
    intro hno
    have hid : (h.id == gid) = false :=
      beq_eq_false_iff_ne.mpr (hno h (List.mem_cons_self h t))
    unfold addToGroups
    rw [if_neg (by simp [hid]), ih (fun g hg => hno g (List.mem_cons_of_mem h hg))]
    rfl

theorem updateGroupGo_none (gid : String) (u : GroupUpdates) (now : String) :
    ∀ gs : List BookmarkGroup, (∀ g ∈ gs, g.id ≠ gid) →
    updateGroupGo gid u now gs = none := by
  intro gs
  induction gs with
  | nil => intro _; rfl
  | cons h t ih =>
    intro hno
    have hid : (h.id == gid) = false :=
      beq_eq_false_iff_ne.mpr (hno h (List.mem_cons_self h t))
    unfold updateGroupGo
    rw [if_neg (by simp [hid]), ih (fun g hg => hno g (List.mem_cons_of_mem h hg))]
    rfl

theorem removeFirstG_none (gid : String) :
    ∀ gs : List BookmarkGroup, (∀ g ∈ gs, g.id ≠ gid) →
    removeFirstG gid gs = none := by
  intro gs
  induction gs with
  | nil => intro _; rfl
  | cons h t ih =>
    intro hno
    have hid : (h.id == gid) = false :=
      beq_eq_false_iff_ne.mpr (hno h (List.mem_cons_self h t))
    unfold removeFirstG
    rw [if_neg (by simp [hid]), ih (fun g hg => hno g (List.mem_cons_of_mem h hg))]
    rfl

theorem updateBookmarkGo_none (root bid : String) (u : UpdateArgs) (now : String) :
    ∀ gs : List BookmarkGroup, (∀ g ∈ gs, ∀ b ∈ g.bookmarks, b.id ≠ bid) →
    updateBookmarkGo root bid u now gs = none := by
  intro gs
  induction gs with
  | nil => intro _; rfl
  | cons h t ih =>
    intro hno
    have hany : h.bookmarks.any (fun b => b.id == bid) = false := by
      rw [List.any_eq_false]
      intro b hb
      simp [hno h (List.mem_cons_self h t) b hb]
    unfold updateBookmarkGo
    rw [if_neg (by simp [hany]),
      ih (fun g hg => hno g (List.mem_cons_of_mem h hg))]
    rfl

theorem removeFirstB_none (bid : String) :
    ∀ bs : List Bookmark, (∀ b ∈ bs, b.id ≠ bid) →
    removeFirstB bid bs = none := by
  intro bs
  induction bs with
  | nil => intro _; rfl
  | cons b t ih =>
    intro hno
    have hid : (b.id == bid) = false :=
      beq_eq_false_iff_ne.mpr (hno b (List.mem_cons_self b t))
    unfold removeFirstB
    rw [if_neg (by simp [hid]), ih (fun x hx => hno x (List.mem_cons_of_mem b hx))]
    rfl

theorem removeBookmarkGo_none (bid now : String) :
    ∀ gs : List BookmarkGroup, (∀ g ∈ gs, ∀ b ∈ g.bookmarks, b.id ≠ bid) →
    removeBookmarkGo bid now gs = none := by
  intro gs
  induction gs with
  | nil => intro _; rfl
  | cons h t ih =>
    intro hno
    unfold removeBookmarkGo
    rw [removeFirstB_none bid h.bookmarks (hno h (List.mem_cons_self h t)),
      ih (fun g hg => hno g (List.mem_cons_of_mem h hg))]
    rfl

/-- **C6.** For every store state and every id that resolves to no existing
group/bookmark, the store operations report not-found via their sentinel
return value rather than throwing — `addBookmark` returns `none`,
`updateGroup`/`removeGroup`/`updateBookmark`/`removeBookmark` return
`false` — and the in-memory store state is returned completely unchanged
by such a call. -/
theorem c6_notfound_sentinels (root : String) (s : BookmarkStore)
    (gid bid loc title desc : String) (opts : AddOptions) (nid now : String)
    (u : UpdateArgs) (gu : GroupUpdates) :
    ((∀ g ∈ s.groups, g.id ≠ gid) →
      addBookmark root s gid loc title desc opts nid now = (none, s)
      ∧ updateGroup s gid gu now = (false, s)
      ∧ removeGroup s gid = (false, s))
    ∧ ((∀ g ∈ s.groups, ∀ b ∈ g.bookmarks, b.id ≠ bid) →
      updateBookmark root s bid u now = (false, s)
      ∧ removeBookmark s bid now = (false, s)) := by
  constructor
  · intro hno
    refine ⟨?_, ?_, ?_⟩
    · unfold addBookmark
      rw [addToGroups_none root gid loc title desc opts nid now s.groups hno]
    · unfold updateGroup
      rw [updateGroupGo_none gid gu now s.groups hno]
    · unfold removeGroup
      rw [removeFirstG_none gid s.groups hno]
  · intro hno
    refine ⟨?_, ?_⟩
    · unfold updateBookmark
      rw [updateBookmarkGo_none root bid u now s.groups hno]
    · unfold removeBookmark
      rw [removeBookmarkGo_none bid now s.groups hno]

/-- **C6 (witness).** The theorem at the concrete store `wStore` with the
unknown ids `nope` (group) and `nope` (bookmark). -/
theorem c6_witness :
    (addBookmark "" wStore "nope" "a.ts:1" "T" "D" {} "z" "t1" = (none, wStore)
     ∧ updateGroup wStore "nope" {} "t1" = (false, wStore)
     ∧ removeGroup wStore "nope" = (false, wStore))
    ∧ (updateBookmark "" wStore "nope" {} "t1" = (false, wStore)
       ∧ removeBookmark wStore "nope" "t1" = (false, wStore)) := by
  have h := c6_notfound_sentinels "" wStore "nope" "nope" "a.ts:1" "T" "D" {} "z" "t1" {} {}
  exact ⟨h.1 (by decide), h.2 (by decide)⟩

theorem mem_descFold (bs : List HBookmark) (n : Nat) :
    ∀ (l : List HBookmark) (x : String),
      x ∈ l.foldr (fun c acc => c.id :: descendantIdsGo bs n c.id ++ acc) [] →
      ∃ c ∈ l, x = c.id ∨ x ∈ descendantIdsGo bs n c.id := by
  intro l
  induction l with
  | nil => intro x hx; simp at hx
  | cons c cs ih =>
    intro x hx
    rw [List.foldr_cons] at hx
    rcases List.mem_cons.mp hx with hx | hx
    · exact ⟨c, List.mem_cons_self c cs, Or.inl hx⟩
    · rcases List.mem_append.mp hx with hx | hx
      · exact ⟨c, List.mem_cons_self c cs, Or.inr hx⟩
      · obtain ⟨c2, hc2, hcase⟩ := ih x hx
        exact ⟨c2, List.mem_cons_of_mem c hc2, hcase⟩

theorem mem_descendantIdsGo (bs : List HBookmark) :
    ∀ (n : Nat) (pid x : String), x ∈ descendantIdsGo bs n pid →
      ∃ c ∈ bs, c.id = x := by
  intro n
  induction n with
  | zero => intro pid x hx; simp [descendantIdsGo] at hx
  | succ n ih =>
    intro pid x hx
    unfold descendantIdsGo at hx
    obtain ⟨c, hc, hcase⟩ := mem_descFold bs n _ x hx
    rcases hcase with h | h
    · exact ⟨c, List.mem_of_mem_filter hc, h.symm⟩
    · exact ih c.id x h

/-- **C5.** For every bookmark of a group of the (spec-modelled)
hierarchy-aware store, attempting via `updateBookmark` to set its
`parentId` to itself or to any of its current descendants fails with the
InvalidHierarchy failure — not a silent drop of the `parentId` — and the
group (hence the hierarchy) is returned unchanged by the failed call. -/
theorem c5_cycle_prevention (g : HGroup) (bid p now : String) (b : HBookmark)
    (hb : b ∈ g.bookmarks) (hid : b.id = bid)
    (hbad : p = bid ∨ p ∈ descendantIds g.bookmarks bid) :
    updateBookmarkH g bid (some (some p)) now = (.invalidHierarchy, g) := by
  have hfind : ∃ c, g.bookmarks.find? (fun x => x.id == bid) = some c := by
    have : g.bookmarks.find? (fun x => x.id == bid) ≠ none := by
      intro hnone
      rw [List.find?_eq_none] at hnone
      exact hnone b hb (beq_iff_eq.mpr hid)
    exact Option.ne_none_iff_exists'.mp this
  obtain ⟨c, hc⟩ := hfind
  have hexists : g.bookmarks.any (fun x => x.id == p) = true := by
    rw [List.any_eq_true]
    rcases hbad with hself | hdesc
    · exact ⟨b, hb, beq_iff_eq.mpr (hself ▸ hid)⟩
    · obtain ⟨c2, hc2, hc2id⟩ := mem_descendantIdsGo g.bookmarks _ _ _ hdesc
      exact ⟨c2, hc2, beq_iff_eq.mpr hc2id⟩
  have hviol : (p == bid || (descendantIds g.bookmarks bid).contains p) = true := by
    rcases hbad with hself | hdesc
    · rw [hself]; simp
    · have h2 : (descendantIds g.bookmarks bid).contains p = true :=
        List.elem_eq_true_of_mem hdesc
      rw [h2]; simp
  unfold updateBookmarkH
  rw [hc]
  simp only [hexists, Bool.not_true, Bool.false_eq_true, if_false, hviol, if_true]

/-- **C5 (witness).** The theorem at the concrete group `whG`: reparenting
`whA` under its child `whB` is rejected as InvalidHierarchy with the group
unchanged. -/
theorem c5_witness :
    updateBookmarkH whG "a" (some (some "b")) "t1" = (.invalidHierarchy, whG) :=
  c5_cycle_prevention whG "a" "b" "t1" whA (by decide) rfl (Or.inr (by decide))

theorem adjustGroups_updatedAt (np : String) (editStart delta : Int) (now : String) :
    ∀ (gs : List BookmarkGroup) (flag : Bool) (i : Nat) (g g2 : BookmarkGroup),
      gs[i]? = some g →
      (adjustGroups np editStart delta now flag gs)[i]? = some g2 →
      g2.updatedAt =
        if flag || (gs.take (i + 1)).any (groupChangedB np editStart delta)
        then now else g.updatedAt := by
  intro gs
  induction gs with
  | nil => intro flag i g g2 hg; simp at hg
  | cons h t ih =>
    intro flag i g g2 hg hg2
    cases i with
    | zero =>
      simp only [List.getElem?_cons_zero] at hg
      injection hg with hg
      subst hg
      simp only [adjustGroups, adjustGroup, List.getElem?_cons_zero] at hg2
      injection hg2 with hg2
      subst hg2
      simp only [List.take_succ_cons, List.take_zero, List.any_cons, List.any_nil,
        Bool.or_false]
    | succ i =>
      simp only [List.getElem?_cons_succ] at hg
      simp only [adjustGroups, List.getElem?_cons_succ] at hg2
      have := ih (adjustGroup np editStart delta now flag h).2 i g g2 hg hg2
      rw [this]
      have hflag : (adjustGroup np editStart delta now flag h).2
          = (flag || groupChangedB np editStart delta h) := rfl
      rw [hflag]
      simp only [List.take_succ_cons, List.any_cons, Bool.or_assoc]

/-- **C9.** In `adjustBookmarksForFileChange` the has-changes flag is
declared once for the whole call and never reset per group: after the call,
the `i`-th group's `updatedAt` is the fresh timestamp exactly when some
group among the first `i + 1` (in iteration order) contains a bookmark
whose location the edit moved — so once any earlier (or this) group
changed, every group iterated afterwards has its `updatedAt` refreshed,
including groups that contain no bookmark in the edited file, while groups
iterated strictly before the first change keep their previous
`updatedAt`. -/
theorem c9_shared_flag (root : String) (s : BookmarkStore)
    (filePath : String) (editStart delta : Int) (now : String)
    (i : Nat) (g g2 : BookmarkGroup)
    (hg : s.groups[i]? = some g)
    (hg2 : (adjustBookmarksForFileChange root s filePath editStart delta now).groups[i]?
      = some g2) :
    g2.updatedAt =
      if anyChangedUpTo (normalizePath filePath root) editStart delta s.groups i
      then now else g.updatedAt := by
  have := adjustGroups_updatedAt (normalizePath filePath root) editStart delta now
    s.groups false i g g2 hg hg2
  simpa [anyChangedUpTo] using this

/-- **C9 (witness).** The theorem at the concrete store `wStore9`: group
`wg9a` holds a bookmark of the edited file that moves, group `wg9b` holds
no bookmark at all, yet after the call `wg9b`'s `updatedAt` is refreshed
(the condition of the characterization evaluates to true at index 1). -/
theorem c9_witness :
    ({ wg9b with updatedAt := "t1" } : BookmarkGroup).updatedAt =
      if anyChangedUpTo (normalizePath "a.ts" "") 5 3 wStore9.groups 1
      then "t1" else wg9b.updatedAt :=
  c9_shared_flag "" wStore9 "a.ts" 5 3 "t1" 1 wg9b { wg9b with updatedAt := "t1" }
    (by decide) (by decide)

theorem tagsMatch_iff (f : ListFilters) (b : Bookmark) :
    ((match f.tags with
      | some (t :: ts) =>
        match b.tags with
        | none => false
        | some bt => (t :: ts).any (fun x => bt.contains x)
      | _ => true) = true) ↔ tagsDim f b := by
  unfold tagsDim
  cases hft : f.tags with
  | none => simp
  | some l =>
    cases l with
    | nil => simp
    | cons t ts =>
      cases hbt : b.tags with
      | none => simp
      | some bt =>
        simp only [List.any_eq_true]
        constructor
        · rintro ⟨x, hx, hcx⟩
          exact ⟨bt, rfl, x, hx, List.mem_of_elem_eq_true hcx⟩
        · rintro ⟨bt2, hbt2, x, hx, hxin⟩
          injection hbt2 with hbt2
          subst hbt2
          exact ⟨x, hx, List.elem_eq_true_of_mem hxin⟩

theorem catTags_true_iff (f : ListFilters) (b : Bookmark) :
    passesCatTags f b = true ↔ (catDim f b ∧ tagsDim f b) := by
  unfold passesCatTags
  by_cases hcat : truthy f.category = true
  · by_cases heq : b.category = f.category
    · have hbeq : (b.category == f.category) = true := beq_iff_eq.mpr heq
      rw [if_neg (by simp [hcat, hbeq])]
      rw [tagsMatch_iff]
      have hdim : catDim f b := fun _ => heq
      simp [hdim]
    · have hbeq : (b.category == f.category) = false := beq_eq_false_iff_ne.mpr heq
      rw [if_pos (by simp [hcat, hbeq])]
      constructor
      · intro h; exact absurd h (by simp)
      · rintro ⟨hdim, -⟩
        exact absurd (hdim hcat) heq
  · rw [if_neg (by simp [hcat])]
    rw [tagsMatch_iff]
    have hdim : catDim f b := fun h => absurd h hcat
    simp [hdim]

theorem passes_true_iff (root : String) (f : ListFilters) (b : Bookmark) :
    passesFilters root f b = some true ↔
      (fileDim root f b ∧ catDim f b ∧ tagsDim f b) := by
  unfold passesFilters fileDim
  by_cases hfp : truthy f.filePath = true
  · simp only [hfp, if_true]
    cases hps : parseLocation b.location with
    | none => simp
    | some parsed =>
      dsimp only
      by_cases hover : (strIncludes parsed.filePath (normalizePath (f.filePath.getD "") root)
          || strIncludes (normalizePath (f.filePath.getD "") root) parsed.filePath) = true
      · rw [if_neg (by simp [hover])]
        have hfile : ∀ q : Prop, (q ↔ True) →
            ((∃ p, some parsed = some p ∧
              (strIncludes p.filePath (normalizePath (f.filePath.getD "") root) = true ∨
               strIncludes (normalizePath (f.filePath.getD "") root) p.filePath = true))) := by
          intro q hq
          rcases Bool.or_eq_true_iff.mp hover with h | h
          · exact ⟨parsed, rfl, Or.inl h⟩
          · exact ⟨parsed, rfl, Or.inr h⟩
        constructor
        · intro h
          have hct : passesCatTags f b = true := by
            injection h
          obtain ⟨hcd, htd⟩ := (catTags_true_iff f b).mp hct
          exact ⟨fun _ => hfile True Iff.rfl, hcd, htd⟩
        · rintro ⟨-, hcd, htd⟩
          rw [(catTags_true_iff f b).mpr ⟨hcd, htd⟩]
      · have hoverf : (strIncludes parsed.filePath (normalizePath (f.filePath.getD "") root)
            || strIncludes (normalizePath (f.filePath.getD "") root) parsed.filePath) = false :=
          eq_false_of_ne_true hover
        rw [if_pos (by simp [hoverf])]
        constructor
        · intro h; exact absurd h (by simp)
        · rintro ⟨hfd, -, -⟩
          obtain ⟨p2, hp2, hcase⟩ := hfd trivial
          injection hp2 with hp2
          subst hp2
          rcases hcase with h | h
          · exact absurd (Bool.or_eq_true_iff.mpr (Or.inl h)) hover
          · exact absurd (Bool.or_eq_true_iff.mpr (Or.inr h)) hover
  · have hfpf : truthy f.filePath = false := eq_false_of_ne_true hfp
    rw [if_neg (by simp [hfpf])]
    constructor
    · intro h
      have hct : passesCatTags f b = true := by injection h
      obtain ⟨hcd, htd⟩ := (catTags_true_iff f b).mp hct
      exact ⟨fun hcontra => absurd hcontra hfp, hcd, htd⟩
    · rintro ⟨-, hcd, htd⟩
      rw [(catTags_true_iff f b).mpr ⟨hcd, htd⟩]

theorem mem_filterGroup (root : String) (f : ListFilters) (g : BookmarkGroup) :
    ∀ (bs : List Bookmark) (res : List (Bookmark × BookmarkGroup))
      (x : Bookmark) (g2 : BookmarkGroup),
      filterGroupBookmarks root f g bs = some res →
      ((x, g2) ∈ res ↔ g2 = g ∧ x ∈ bs ∧ passesFilters root f x = some true) := by
  intro bs
  induction bs with
  | nil =>
    intro res x g2 hfil
    have h2 : some ([] : List (Bookmark × BookmarkGroup)) = some res := hfil
    injection h2 with h2
    subst h2
    simp
  | cons b bs2 ih =>
    intro res x g2 hfil
    unfold filterGroupBookmarks at hfil
    cases hp : passesFilters root f b with
    | none => rw [hp] at hfil; exact absurd hfil (by simp)
    | some pv =>
      rw [hp] at hfil
      cases hrec : filterGroupBookmarks root f g bs2 with
      | none => rw [hrec] at hfil; exact absurd hfil (by simp)
      | some rest =>
        rw [hrec] at hfil
        have hfil2 : some (if pv = true then (b, g) :: rest else rest) = some res := hfil
        injection hfil2 with hres
        subst hres
        have ihr := ih rest x g2 hrec
        cases pv with
        | true =>
          rw [if_pos rfl]
          constructor
          · intro hmem
            rcases List.mem_cons.mp hmem with hmem | hmem
            · have hx : x = b := congrArg Prod.fst hmem
              have hg : g2 = g := congrArg Prod.snd hmem
              exact ⟨hg, hx ▸ List.mem_cons_self b bs2, hx ▸ hp⟩
            · obtain ⟨hg, hxbs, hpass⟩ := ihr.mp hmem
              exact ⟨hg, List.mem_cons_of_mem b hxbs, hpass⟩
          · rintro ⟨hg, hxmem, hpass⟩
            rcases List.mem_cons.mp hxmem with hx | hx
            · subst hx; subst hg; exact List.mem_cons_self _ _
            · exact List.mem_cons_of_mem _ (ihr.mpr ⟨hg, hx, hpass⟩)
        | false =>
          rw [if_neg (by simp)]
          constructor
          · intro hmem
            obtain ⟨hg, hxbs, hpass⟩ := ihr.mp hmem
            exact ⟨hg, List.mem_cons_of_mem b hxbs, hpass⟩
          · rintro ⟨hg, hxmem, hpass⟩
            rcases List.mem_cons.mp hxmem with hx | hx
            · subst hx
              rw [hp] at hpass
              exact absurd hpass (by simp)
            · exact ihr.mpr ⟨hg, hx, hpass⟩

theorem mem_listGo (root : String) (f : ListFilters) :
    ∀ (gs : List BookmarkGroup) (res : List (Bookmark × BookmarkGroup))
      (x : Bookmark) (g : BookmarkGroup),
      listGo root f gs = some res →
      ((x, g) ∈ res ↔ g ∈ gs ∧ x ∈ g.bookmarks ∧ passesFilters root f x = some true) := by
  intro gs
  induction gs with
  | nil =>
    intro res x g hgo
    have h2 : some ([] : List (Bookmark × BookmarkGroup)) = some res := hgo
    injection h2 with h2
    subst h2
    simp
  | cons h t ih =>
    intro res x g hgo
    unfold listGo at hgo
    cases hfil : filterGroupBookmarks root f h h.bookmarks with
    | none => rw [hfil] at hgo; exact absurd hgo (by simp)
    | some here =>
      rw [hfil] at hgo
      cases hrec : listGo root f t with
      | none => rw [hrec] at hgo; exact absurd hgo (by simp)
      | some rest =>
        rw [hrec] at hgo
        have hgo2 : some (here ++ rest) = some res := hgo
        injection hgo2 with hres
        subst hres
        rw [List.mem_append, mem_filterGroup root f h h.bookmarks here x g hfil,
          ih rest x g hrec]
        constructor
        · rintro (⟨hg, hxbs, hpass⟩ | ⟨hg, hxbs, hpass⟩)
          · exact ⟨hg ▸ List.mem_cons_self h t, hg ▸ hxbs, hpass⟩
          · exact ⟨List.mem_cons_of_mem h hg, hxbs, hpass⟩
        · rintro ⟨hgmem, hxbs, hpass⟩
          rcases List.mem_cons.mp hgmem with hg | hg
          · exact Or.inl ⟨hg, hg ▸ hxbs, hpass⟩
          · exact Or.inr ⟨hg, hxbs, hpass⟩

theorem mem_selectedGroups (s : BookmarkStore) (f : ListFilters) (g : BookmarkGroup) :
    (g ∈ (if truthy f.groupId then s.groups.filter (fun h => some h.id == f.groupId)
          else s.groups))
      ↔ (g ∈ s.groups ∧ groupDim f g) := by
  unfold groupDim
  by_cases ht : truthy f.groupId = true
  · simp only [ht, if_true, List.mem_filter]
    constructor
    · rintro ⟨hmem, hbeq⟩
      exact ⟨hmem, fun _ => (beq_iff_eq.mp hbeq).symm⟩
    · rintro ⟨hmem, hdim⟩
      exact ⟨hmem, beq_iff_eq.mpr (hdim trivial).symm⟩
  · have htf : truthy f.groupId = false := eq_false_of_ne_true ht
    simp [htf]

/-- **C7.** For every filter combination passed to `listBookmarks` (when
the call completes), a bookmark appears in the result exactly when it
satisfies all provided filter dimensions simultaneously — AND across
dimensions — where the category dimension is exact equality and the tags
dimension is satisfied when at least one of the filter tags occurs in the
bookmark's tag list (OR semantics, not AND). -/
theorem c7_filter_semantics (root : String) (s : BookmarkStore) (f : ListFilters)
    (res : List (Bookmark × BookmarkGroup)) (b : Bookmark) (g : BookmarkGroup)
    (h : listBookmarks root s f = some res) :
    (b, g) ∈ res ↔
      (g ∈ s.groups ∧ b ∈ g.bookmarks
       ∧ groupDim f g ∧ fileDim root f b ∧ catDim f b ∧ tagsDim f b) := by
  unfold listBookmarks at h
  rw [mem_listGo root f _ res b g h, mem_selectedGroups s f g, passes_true_iff]
  tauto

/-- **C7 (witness).** The theorem at the concrete store `wStore7` with a
category filter: bookmark `wb7a` (category `bug`) satisfies all provided
dimensions, and indeed appears in the computed result list. -/
theorem c7_witness :
    (wb7a, wg7) ∈ [(wb7a, wg7)] := by
  have h : listBookmarks "" wStore7 { category := some "bug" } = some [(wb7a, wg7)] := by
    decide
  exact (c7_filter_semantics "" wStore7 { category := some "bug" } [(wb7a, wg7)]
    wb7a wg7 h).mpr
    ⟨by decide, by decide, fun hcontra => absurd hcontra (by decide),
     fun hcontra => absurd hcontra (by decide), fun _ => by decide, trivial⟩

theorem filterGroup_congr (root : String) (f1 f2 : ListFilters) (g : BookmarkGroup)
    (hpass : ∀ b, passesFilters root f1 b = passesFilters root f2 b) :
    ∀ bs : List Bookmark,
      filterGroupBookmarks root f1 g bs = filterGroupBookmarks root f2 g bs := by
  intro bs
  induction bs with
  | nil => rfl
  | cons b bs2 ih =>
    unfold filterGroupBookmarks
    rw [hpass b, ih]

theorem listGo_congr (root : String) (f1 f2 : ListFilters)
    (hpass : ∀ b, passesFilters root f1 b = passesFilters root f2 b) :
    ∀ gs : List BookmarkGroup, listGo root f1 gs = listGo root f2 gs := by
  intro gs
  induction gs with
  | nil => rfl
  | cons h t ih =>
    unfold listGo
    rw [filterGroup_congr root f1 f2 h hpass h.bookmarks, ih]

theorem passes_some_true_catTags (root : String) (f : ListFilters) (b : Bookmark)
    (h : passesFilters root f b = some true) : passesCatTags f b = true := by
  unfold passesFilters at h
  by_cases hfp : truthy f.filePath = true
  · rw [if_pos hfp] at h
    cases hps : parseLocation b.location with
    | none => rw [hps] at h; exact absurd h (by simp)
    | some parsed =>
      rw [hps] at h
      dsimp only at h
      split at h
      · exact absurd h (by simp)
      · injection h
  · rw [if_neg hfp] at h
    injection h

theorem catTags_false_of_absent (f : ListFilters) (b : Bookmark)
    (t : String) (ts : List String)
    (hf : f.tags = some (t :: ts)) (hb : b.tags = none) :
    passesCatTags f b = false := by
  unfold passesCatTags
  rw [hf, hb]
  split
  · rfl
  · rfl

/-- **C10.** In `listBookmarks`, a tags filter given as an empty list is
ignored entirely — the call returns exactly what it returns with no tags
filter at all — while for a non-empty tags filter a bookmark whose `tags`
field is absent never appears in the result, regardless of the filter's
contents. -/
theorem c10_tags_edge_cases (root : String) (s : BookmarkStore) (f : ListFilters)
    (b : Bookmark) (g : BookmarkGroup) (res : List (Bookmark × BookmarkGroup))
    (t : String) (ts : List String) :
    (listBookmarks root s { f with tags := some [] }
        = listBookmarks root s { f with tags := none })
    ∧ (f.tags = some (t :: ts) → b.tags = none →
       listBookmarks root s f = some res → (b, g) ∉ res) := by
  constructor
  · unfold listBookmarks
    exact listGo_congr root { f with tags := some [] } { f with tags := none }
      (fun b => rfl)
      (if truthy f.groupId then s.groups.filter (fun h => some h.id == f.groupId)
       else s.groups)
  · intro hf hb hlist hmem
    unfold listBookmarks at hlist
    have hpass := ((mem_listGo root f _ res b g hlist).mp hmem).2.2
    have hct := passes_some_true_catTags root f b hpass
    rw [catTags_false_of_absent f b t ts hf hb] at hct
    exact absurd hct (by simp)

/-- **C10 (witness).** The theorem at the concrete store `wStore10` and the
filter `tags := ["x"]`: the bookmark `wb10b`, whose `tags` field is absent,
is not in the result (which contains only `wb10a`). -/
theorem c10_witness : (wb10b, wg10) ∉ [(wb10a, wg10)] :=
  (c10_tags_edge_cases "" wStore10 { tags := some ["x"] } wb10b wg10
    [(wb10a, wg10)] "x" []).2 rfl rfl (by decide)
